import Mathlib

/-!
Verification of the DC_PORTAL byte-buffer codecs (Huffman, RLE, LZ77).

The three canonical codec implementations are shallowly embedded here:
  * escape-sequence RLE        (server/algorithms/rle.js)
  * binary-safe Huffman        (server/algorithms/huffman.js, the binary
                                tree-serialized variant)
  * LZ77 with ASCII tokens     (server/algorithms/lz77.js)

Byte buffers are modelled as List Nat; a JS Buffer guarantees each element
is in 0..255, which appears as an explicit hypothesis where it matters.
JavaScript 32-bit signed reads of big-endian fields ((a << 24) | ...) are
modelled by toI32.  JS Array.prototype.sort is stable; it is modelled by a
stable insertion sort, which produces the identical output list.
The floating comparison totalLength > length * 0.1 inside the LZ77 sniffer
is modelled in exact arithmetic as 10 * totalLength > length.
-/

set_option maxHeartbeats 1000000

/-- Big-endian 4-byte serialization of a length, as written by the JS code
(header[i] = (n >> s) & 0xff); faithful for n < 2^31, which covers every
possible JS Buffer length. -/
def be32 (n : Nat) : List Nat :=
  [n / 16777216 % 256, n / 65536 % 256, n / 256 % 256, n % 256]

/-- JS ToInt32: interpret a nonnegative integer as a 32-bit signed value. -/
def toI32 (v : Nat) : Int :=
  if v % 4294967296 < 2147483648 then ((v % 4294967296 : Nat) : Int)
  else ((v % 4294967296 : Nat) : Int) - 4294967296

/-- The JS expression (buf[i] << 24) | (buf[i+1] << 16) | (buf[i+2] << 8) | buf[i+3]
on byte values: the bit patterns concatenate, and the result is 32-bit signed. -/
def readBE32At (buf : List Nat) (i : Nat) : Int :=
  toI32 (buf.getD i 0 * 16777216 + buf.getD (i+1) 0 * 65536 +
         buf.getD (i+2) 0 * 256 + buf.getD (i+3) 0)

/-! ## RLE codec (server/algorithms/rle.js) -/

/-- Count how many leading elements of the list equal b, capped at cap.
This models the inner while loop of compressRLE, which extends runLength
while buffer[position + runLength] === currentByte && runLength < 255. -/
def countEq (b : Nat) : List Nat → Nat → Nat
  | _, 0 => 0
  | [], _ + 1 => 0
  | c :: rest, cap + 1 => if c = b then countEq b rest cap + 1 else 0

/-- The token stream produced by the compressRLE scan loop (without the
6-byte header).  At each position the run length r of the current byte is
taken (capped at 255); runs of length at least 3 become an escape token
[0xFF, byte, r], shorter runs are emitted literally with the literal 0xFF
escaped as [0xFF, 0xFF, 1]; the scan then advances by r. -/
def rleBody (l : List Nat) : List Nat :=
  match l with
  | [] => []
  | b :: rest =>
    let k := countEq b rest 254
    let r := k + 1
    if 3 ≤ r then
      255 :: b :: r :: rleBody (rest.drop k)
    else
      (((b :: rest).take r).map (fun c => if c = 255 then [255, 255, 1] else [c])).flatten
        ++ rleBody (rest.drop k)
termination_by l.length
decreasing_by
  all_goals simp [List.length_drop]; omega

/-- compressRLE: throws on empty input, otherwise emits
[originalLength(4, big-endian), 0xE1, escapeByte = 0xFF] ++ token stream. -/
def compressRLE (x : List Nat) : Except String (List Nat) :=
  if x.isEmpty then .error "Cannot compress empty input"
  else .ok (be32 x.length ++ [225, 255] ++ rleBody x)

/-- isValidRLEFile: header at least 6 bytes, byte[4] = 0xE1, declared
original size nonzero and at most 100 MiB (as a 32-bit signed read), and at
least one trailing data byte.  The escape-byte range check of the source is
always true for buffer bytes and is omitted. -/
def isValidRLEFile (buf : List Nat) : Bool :=
  if buf.length < 6 then false
  else if buf.getD 4 0 ≠ 225 then false
  else
    let n := readBE32At buf 0
    if n = 0 ∨ n > 104857600 then false
    else if buf.length < 7 then false
    else true

/-- The decompression loop of performActualDecompression in rle.js: while
bytes remain and fewer than orig output bytes have been produced, an escape
byte expects two following bytes (value, runLength); runLength 0 is an
error, a truncated escape sequence is an error, otherwise value is appended
runLength times capped so the output never exceeds orig; other bytes are
appended literally. -/
def rleLoop (esc : Nat) (orig : Int) (comp : List Nat) (out : List Nat) :
    Except String (List Nat) :=
  if (out.length : Int) < orig then
    match comp with
    | [] => .ok out
    | c :: rest =>
      if c = esc then
        match rest with
        | d :: r :: rest2 =>
          if r = 0 then .error "Invalid RLE run length: 0"
          else if r > 255 then .error "Invalid RLE run length above maximum"
          else rleLoop esc orig rest2
            (out ++ List.replicate (min r (orig - out.length).toNat) d)
        | _ => .error "Incomplete RLE escape sequence"
      else rleLoop esc orig rest (out ++ [c])
  else .ok out
termination_by comp.length
decreasing_by
  all_goals simp
  all_goals omega

/-- performActualDecompression (rle.js): read the header fields and run the
token-stream loop over the bytes after the 6-byte header. -/
def RLE.performActualDecompression (buf : List Nat) : Except String (List Nat) :=
  rleLoop (buf.getD 5 0) (readBE32At buf 0) (buf.drop 6) []

/-- decompressRLE: sniffer-rejected input is returned unchanged, otherwise
the real decompression runs. -/
def decompressRLE (buf : List Nat) : Except String (List Nat) :=
  if isValidRLEFile buf then RLE.performActualDecompression buf else .ok buf

/-! ## LZ77 codec (server/algorithms/lz77.js)

Buffers are converted with toString("binary") (latin1), a bijection between
bytes and char codes 0..255, so the model keeps working on List Nat. -/

/-- Decimal digit character codes of a natural number, most significant
first; this is the JS template interpolation of a nonnegative integer. -/
def decDigits (n : Nat) : List Nat :=
  if n < 10 then [48 + n] else decDigits (n / 10) ++ [48 + n % 10]
termination_by n
decreasing_by
  exact Nat.div_lt_self (by omega) (by omega)

/-- Numeric value of a list of decimal digit codes (JS parseInt base 10). -/
def decVal (ds : List Nat) : Nat :=
  ds.foldl (fun a d => 10 * a + (d - 48)) 0

/-- Whether a character code is an ASCII decimal digit. -/
def isDigitCode (c : Nat) : Bool := 48 ≤ c && c ≤ 57

/-- Length of the common prefix of two lists; this is the inner while loop
of compressLZ77 comparing searchBuffer[j + length] with lookahead[length]. -/
def commonPrefixLen : List Nat → List Nat → Nat
  | a :: as, b :: bs => if a = b then commonPrefixLen as bs + 1 else 0
  | _, _ => 0

/-- The match search of compressLZ77: scan every window offset j oldest to
newest, keep a candidate only when its common-prefix length with the
lookahead is strictly greater than the best so far, and record the distance
searchBuffer.length - j.  Returns (matchDistance, matchLength), initially
(0, 0). -/
def bestMatch (sb la : List Nat) : Nat × Nat :=
  (List.range sb.length).foldl
    (fun best j =>
      let len := commonPrefixLen (sb.drop j) la
      if best.2 < len then (sb.length - j, len) else best)
    (0, 0)

/-- The ASCII token <distance,length,nextChar> emitted by compressLZ77;
nextChar is absent when the match runs to the end of the input. -/
def tokenBytes (d len : Nat) (c : Option Nat) : List Nat :=
  [60] ++ decDigits d ++ [44] ++ decDigits len ++ [44] ++ c.toList ++ [62]

/-- The compressLZ77 main loop from position i: lookahead is the next 32
bytes, the window is the previous 2048 bytes, one token is emitted per
step and i advances by matchLength + 1. -/
def lzBody (input : List Nat) (i : Nat) : List Nat :=
  if _h : i < input.length then
    let la := (input.drop i).take 32
    let sb := (input.take i).drop (i - 2048)
    let m := bestMatch sb la
    tokenBytes m.1 m.2 (input.get? (i + m.2)) ++ lzBody input (i + m.2 + 1)
  else []
termination_by input.length - i
decreasing_by
  omega

/-- compressLZ77: the concatenation of all tokens. -/
def compressLZ77 (input : List Nat) : List Nat :=
  lzBody input 0

/-- Consume one expected character code at the head of the input. -/
def expectCode (c : Nat) (l : List Nat) : Option (List Nat) :=
  match l with
  | x :: rest => if x = c then some rest else none
  | [] => none

/-- Consume a maximal nonempty digit sequence and return its parseInt value
(the regex fragment ([0-9]+) followed by a required literal, so greedy
matching needs no backtracking). -/
def parseNum (l : List Nat) : Option (Nat × List Nat) :=
  let ds := l.takeWhile isDigitCode
  if ds.isEmpty then none else some (decVal ds, l.dropWhile isDigitCode)

/-- Consume the regex fragment ([^>]?)> : either a closing 62 directly
(captured char empty), or one non-62 character followed by 62. -/
def parseCharGt (l : List Nat) : Option (Option Nat × List Nat) :=
  match l with
  | c :: rest =>
    if c = 62 then some (none, rest)
    else
      match rest with
      | c2 :: rest2 => if c2 = 62 then some (some c, rest2) else none
      | [] => none
  | [] => none

/-- Parse one token of the regex <([0-9]+),([0-9]+),([^>]?)> anchored at the
head of the list; on success return the token (distance, length, optional
char) and the remaining input after the match. -/
def tryToken (l : List Nat) : Option ((Nat × Nat × Option Nat) × List Nat) := do
  let r0 ← expectCode 60 l
  let (d, r1) ← parseNum r0
  let r2 ← expectCode 44 r1
  let (ln, r3) ← parseNum r2
  let r4 ← expectCode 44 r3
  let (c, r5) ← parseCharGt r4
  pure ((d, ln, c), r5)

theorem expectCode_length {c : Nat} {l r : List Nat} (h : expectCode c l = some r) :
    r.length + 1 = l.length := by
  match l with
  | [] => simp [expectCode] at h
  | x :: rest =>
    simp only [expectCode] at h
    split at h
    · cases h; simp
    · cases h

theorem parseNum_length {l : List Nat} {n : Nat} {r : List Nat}
    (h : parseNum l = some (n, r)) : r.length ≤ l.length := by
  simp only [parseNum] at h
  split at h
  · cases h
  · cases h
    have e : l.takeWhile isDigitCode ++ l.dropWhile isDigitCode = l :=
      List.takeWhile_append_dropWhile isDigitCode l
    have : (l.takeWhile isDigitCode ++ l.dropWhile isDigitCode).length = l.length := by
      rw [e]
    simp only [List.length_append] at this
    omega

theorem parseCharGt_length {l : List Nat} {c : Option Nat} {r : List Nat}
    (h : parseCharGt l = some (c, r)) : r.length < l.length := by
  match l with
  | [] => simp [parseCharGt] at h
  | x :: rest =>
    simp only [parseCharGt] at h
    split at h
    · cases h; simp
    · match rest with
      | [] => cases h
      | c2 :: rest2 =>
        simp only at h
        split at h
        · cases h; simp; omega
        · cases h

theorem tryToken_length {l : List Nat} {t : Nat × Nat × Option Nat} {r : List Nat}
    (h : tryToken l = some (t, r)) : r.length < l.length := by
  simp only [tryToken, bind, Option.bind_eq_some] at h
  obtain ⟨r0, h0, p1, h1, r2, h2, p2, h3, r4, h4, p3, h5, hfin⟩ := h
  obtain ⟨d, r1⟩ := p1
  obtain ⟨ln, r3⟩ := p2
  obtain ⟨c, r5⟩ := p3
  dsimp only at hfin
  cases hfin
  have e0 : r0.length + 1 = l.length := expectCode_length h0
  have e1 : r1.length ≤ r0.length := parseNum_length h1
  have e2 : r2.length + 1 = r1.length := expectCode_length h2
  have e3 : r3.length ≤ r2.length := parseNum_length h3
  have e4 : r4.length + 1 = r3.length := expectCode_length h4
  have e5 : r.length < r4.length := parseCharGt_length h5
  omega

/-- Successive non-overlapping leftmost regex matches over the whole input,
as produced by the pattern.exec loop: try a token at every position, skip a
single character when no token starts there. -/
def scanTokens (l : List Nat) : List (Nat × Nat × Option Nat) :=
  match l with
  | [] => []
  | c :: rest =>
    match htt : tryToken (c :: rest) with
    | some (t, r) => t :: scanTokens r
    | none => scanTokens rest
termination_by l.length
decreasing_by
  · exact tryToken_length htt
  · simp

/-- The isValidLZ77File scanning loop: walk the matches, accumulating the
match count and the total matched text length; reject outright when a match
has distance above 2048 or length above 32; stop after the second match.
Returns none for the outright rejection, otherwise the final counters. -/
def sniffLZAux (l : List Nat) (count totalLen : Nat) : Option (Nat × Nat) :=
  match l with
  | [] => some (count, totalLen)
  | c :: rest =>
    match htt : tryToken (c :: rest) with
    | none => sniffLZAux rest count totalLen
    | some (t, r) =>
      let tl := (c :: rest).length - r.length
      if t.1 > 2048 ∨ t.2.1 > 32 then none
      else if count + 1 ≥ 2 then some (count + 1, totalLen + tl)
      else sniffLZAux r (count + 1) (totalLen + tl)
termination_by l.length
decreasing_by
  · simp
  · exact tryToken_length htt

@[simp]
theorem scanTokens_nil : scanTokens [] = [] := by
  unfold scanTokens
  rfl

@[simp]
theorem scanTokens_cons (c : Nat) (rest : List Nat) :
    scanTokens (c :: rest) =
      match tryToken (c :: rest) with
      | some (t, r) => t :: scanTokens r
      | none => scanTokens rest := by
  conv_lhs => unfold scanTokens
  split
  · rename_i t r h
    rw [h]
  · rename_i h
    rw [h]

@[simp]
theorem sniffLZAux_nil (count totalLen : Nat) :
    sniffLZAux [] count totalLen = some (count, totalLen) := by
  unfold sniffLZAux
  rfl

@[simp]
theorem sniffLZAux_cons (c : Nat) (rest : List Nat) (count totalLen : Nat) :
    sniffLZAux (c :: rest) count totalLen =
      match tryToken (c :: rest) with
      | none => sniffLZAux rest count totalLen
      | some (t, r) =>
        let tl := (c :: rest).length - r.length
        if t.1 > 2048 ∨ t.2.1 > 32 then none
        else if count + 1 ≥ 2 then some (count + 1, totalLen + tl)
        else sniffLZAux r (count + 1) (totalLen + tl) := by
  conv_lhs => unfold sniffLZAux
  split
  · rename_i h
    rw [h]
  · rename_i t r h
    rw [h]

/-- isValidLZ77File: at least one match, no out-of-bounds field among the
first two matches, and the matched text of those first matches must cover
more than 10 percent of the buffer (the float comparison
totalLength > compressed.length * 0.1 is modelled exactly). -/
def isValidLZ77File (buf : List Nat) : Bool :=
  match sniffLZAux buf 0 0 with
  | none => false
  | some (c, t) => c > 0 && 10 * t > buf.length

/-- The back-reference copy loop of performActualDecompression (lz77.js):
copy len bytes one at a time from index start + i of the current output,
which grows as the copy proceeds; an index at or past the current end is a
hard error. -/
def lzCopyAux (start len : Nat) (i : Nat) (out : List Nat) :
    Except String (List Nat) :=
  if i < len then
    if start + i < out.length then
      lzCopyAux start len (i + 1) (out ++ [out.getD (start + i) 0])
    else .error "LZ77 reference out of bounds"
  else .ok out
termination_by len - i
decreasing_by
  omega

/-- Apply one parsed token to the output: reject a distance beyond the
output length, copy length bytes starting at output.length - distance, then
append the optional literal char. -/
def lzApplyToken (out : List Nat) (t : Nat × Nat × Option Nat) :
    Except String (List Nat) :=
  if t.1 > out.length then .error "Invalid LZ77 distance"
  else
    match lzCopyAux (out.length - t.1) t.2.1 0 out with
    | .error e => .error e
    | .ok o => .ok (o ++ t.2.2.toList)

/-- performActualDecompression (lz77.js): fold every regex match over the
growing output. -/
def LZ77.performActualDecompression (buf : List Nat) : Except String (List Nat) :=
  (scanTokens buf).foldlM lzApplyToken []

/-- decompressLZ77: sniffer-rejected input is returned unchanged, otherwise
the real decompression runs. -/
def decompressLZ77 (buf : List Nat) : Except String (List Nat) :=
  if isValidLZ77File buf then LZ77.performActualDecompression buf else .ok buf

/-! ## Huffman codec (server/algorithms/huffman.js, binary-safe variant)

The dynamic JS node shape {byte, freq, left, right} with null sentinels is
embedded as a three-constructor tree: nil models a null reference, leaf a
node with byte different from null (its children are always null in every
reachable shape), node an internal node with byte = null.  Frequencies are
carried next to the trees while building and dropped afterwards, exactly as
the JS code stops using freq after construction. -/

inductive HTree where
  | nil : HTree
  | leaf (b : Nat) : HTree
  | node (l r : HTree) : HTree
deriving DecidableEq

/-- One step of buildFrequencyTable: increment the count of b, inserting a
fresh entry at the end on first occurrence (JS Map preserves insertion
order). -/
def bumpFreq (b : Nat) : List (Nat × Nat) → List (Nat × Nat)
  | [] => [(b, 1)]
  | (c, f) :: rest => if c = b then (c, f + 1) :: rest else (c, f) :: bumpFreq b rest

/-- buildFrequencyTable: byte to count association list in first-occurrence
order. -/
def buildFrequencyTable (buffer : List Nat) : List (Nat × Nat) :=
  buffer.foldl (fun m b => bumpFreq b m) []

/-- Stable insertion by nondecreasing frequency: the new element goes after
every element with a less-or-equal key. -/
def hufInsert (x : HTree × Nat) : List (HTree × Nat) → List (HTree × Nat)
  | [] => [x]
  | y :: ys => if y.2 ≤ x.2 then y :: hufInsert x ys else x :: y :: ys

/-- Stable sort by frequency.  JS Array.prototype.sort is required to be
stable, and a stable sort's output is uniquely determined, so this models
nodes.sort((a, b) => a.freq - b.freq) exactly. -/
def hufSort (l : List (HTree × Nat)) : List (HTree × Nat) :=
  l.foldl (fun acc x => hufInsert x acc) []

theorem hufInsert_length (x : HTree × Nat) (l : List (HTree × Nat)) :
    (hufInsert x l).length = l.length + 1 := by
  induction l with
  | nil => simp [hufInsert]
  | cons y ys ih =>
    simp only [hufInsert]
    split
    · simp [ih]
    · simp

theorem hufSort_length (l : List (HTree × Nat)) :
    (hufSort l).length = l.length := by
  have general : ∀ (l acc : List (HTree × Nat)),
      (l.foldl (fun acc x => hufInsert x acc) acc).length = acc.length + l.length := by
    intro l
    induction l with
    | nil => simp
    | cons x xs ih =>
      intro acc
      simp only [List.foldl_cons]
      rw [ih]
      rw [hufInsert_length]
      simp only [List.length_cons]
      omega
  simpa using general l []

/-- The merge loop of buildHuffmanTree: while more than one node remains,
sort by frequency, remove the two smallest, and push their merge at the
end.  The final catch-all arm is unreachable because sorting preserves the
length. -/
def hufLoop (l : List (HTree × Nat)) : HTree :=
  if l.length < 2 then
    match l with
    | [] => .nil
    | t :: _ => t.1
  else
    match hs : hufSort l with
    | a :: b :: rest => hufLoop (rest ++ [(.node a.1 b.1, a.2 + b.2)])
    | _ => .nil
termination_by l.length
decreasing_by
  have hlen := hufSort_length l
  rw [hs] at hlen
  simp only [List.length_cons, List.length_append, List.length_nil] at hlen ⊢
  omega

theorem hufLoop_eq (l : List (HTree × Nat)) :
    hufLoop l =
      if l.length < 2 then
        match l with
        | [] => .nil
        | t :: _ => t.1
      else
        match hufSort l with
        | a :: b :: rest => hufLoop (rest ++ [(.node a.1 b.1, a.2 + b.2)])
        | _ => .nil := by
  conv_lhs => unfold hufLoop
  split
  · rfl
  · split
    · rename_i a b rest h
      rw [h]
    · rename_i h
      cases hs : hufSort l with
      | nil => rfl
      | cons a tail =>
        cases tail with
        | nil => rfl
        | cons b rest => exact (h a b rest hs).elim

/-- buildHuffmanTree: leaves from the frequency table in insertion order;
an alphabet of one byte becomes an internal root wrapping the single leaf
(left child only).  The empty table yields the JS undefined, modelled nil. -/
def buildHuffmanTree (ft : List (Nat × Nat)) : HTree :=
  let nodes := ft.map (fun p => ((HTree.leaf p.1 : HTree), p.2))
  match nodes with
  | [] => .nil
  | [x] => .node x.1 .nil
  | _ => hufLoop nodes

/-- Map.set: update the value in place when the key exists, otherwise
append the new entry. -/
def mapSet (m : List (Nat × List Bool)) (k : Nat) (v : List Bool) :
    List (Nat × List Bool) :=
  if m.any (fun p => p.1 = k) then
    m.map (fun p => if p.1 = k then (k, v) else p)
  else m ++ [(k, v)]

/-- generateCodes: bit false for a left edge, true for a right edge; a leaf
reached with an empty path (single-leaf tree at the root) receives the
one-bit code false, the JS string fallback prime-or-zero.  A null child is
skipped, which is exactly what returning the map unchanged does. -/
def generateCodes (t : HTree) (pre : List Bool) (m : List (Nat × List Bool)) :
    List (Nat × List Bool) :=
  match t with
  | .nil => m
  | .leaf b => mapSet m b (if pre.isEmpty then [false] else pre)
  | .node l r => generateCodes r (pre ++ [true]) (generateCodes l (pre ++ [false]) m)

/-- First-match lookup in the code map (Map.get on unique keys). -/
def lookupCode (m : List (Nat × List Bool)) (b : Nat) : Option (List Bool) :=
  match m.find? (fun p => p.1 = b) with
  | some p => some p.2
  | none => none

/-- writeTree: preorder serialization, marker 1 plus byte value for a leaf,
marker 0 for an internal node followed by both children; a null reference
contributes nothing. -/
def writeTree : HTree → List Nat
  | .nil => []
  | .leaf b => [1, b]
  | .node l r => 0 :: (writeTree l ++ writeTree r)

/-- readTree: parse one tree from the front of the byte list, returning the
unread remainder; marker 1 must be followed by a byte, marker 0 by two
recursively parsed children, anything else is a hard error, as is running
out of bytes.  The remainder is packaged with a proof that at least one
byte was consumed, which drives termination. -/
def readTree : (bytes : List Nat) →
    Except String (HTree × { r : List Nat // r.length < bytes.length })
  | [] => .error "Unexpected end of Huffman tree data."
  | flag :: rest =>
    if flag = 1 then
      match rest with
      | [] => .error "Incomplete leaf node in Huffman tree."
      | b :: rest2 => .ok (.leaf b, ⟨rest2, by simp; omega⟩)
    else if flag = 0 then
      match readTree rest with
      | .error e => .error e
      | .ok (l, ⟨r1, h1⟩) =>
        match readTree r1 with
        | .error e => .error e
        | .ok (r, ⟨r2, h2⟩) => .ok (.node l r, ⟨r2, by simp only [List.length_cons]; omega⟩)
    else .error "Invalid tree flag value"
termination_by bytes => bytes.length
decreasing_by
  all_goals simp
  all_goals omega

theorem readTree_nil :
    readTree [] = .error "Unexpected end of Huffman tree data." := by
  unfold readTree
  rfl

theorem readTree_leaf (b : Nat) (rest : List Nat) :
    readTree (1 :: b :: rest) = .ok (.leaf b, ⟨rest, by simp; omega⟩) := by
  unfold readTree
  simp

/-- The bit accumulation of one code string appended per input byte; none
when some byte has no code (the JS throw). -/
def encodeBits (m : List (Nat × List Bool)) : List Nat → Option (List Bool)
  | [] => some []
  | b :: rest =>
    match lookupCode m b with
    | none => none
    | some c => (encodeBits m rest).map (fun bs => c ++ bs)

/-- parseInt of an 8-character binary chunk: most significant bit first. -/
def bitsToByte (bits : List Bool) : Nat :=
  bits.foldl (fun a b => 2 * a + (if b then 1 else 0)) 0

/-- Pack a padded bit string into bytes, 8 bits at a time. -/
def packBits (l : List Bool) : List Nat :=
  if l.isEmpty then [] else bitsToByte (l.take 8) :: packBits (l.drop 8)
termination_by l.length
decreasing_by
  rename_i hne
  simp only [List.length_drop]
  have hpos : 0 < l.length := by
    cases l
    · simp at hne
    · simp
  omega

/-- byte.toString(2).padStart(8, '0'): the 8 bits of a byte, most
significant first. -/
def byteToBits (b : Nat) : List Bool :=
  (List.range 8).map (fun i => b / 2 ^ (7 - i) % 2 = 1)

/-- compressHuffman: frequency table, tree, per-byte codes, zero-padded bit
string packed into bytes behind the 7-byte header
[padding, treeSize(2, big-endian), originalLength(4, big-endian)]. -/
def compressHuffman (x : List Nat) : Except String (List Nat) :=
  if x.isEmpty then .error "Cannot compress empty input"
  else
    let ft := buildFrequencyTable x
    let tree := buildHuffmanTree ft
    let codes := generateCodes tree [] []
    match encodeBits codes x with
    | none => .error "No Huffman code found for byte"
    | some bits =>
      let padding := (8 - bits.length % 8) % 8
      let padded := bits ++ List.replicate padding false
      let dataBytes := packBits padded
      let treeBytes := writeTree tree
      if treeBytes.length > 65535 then .error "Huffman tree too large to encode"
      else .ok ([padding, treeBytes.length / 256 % 256, treeBytes.length % 256]
                ++ be32 x.length ++ treeBytes ++ dataBytes)

/-- isValidHuffmanFile: at least 7 header bytes, padding at most 7, tree
size nonzero and at most 65535, at least one data byte after the tree, and
the tree bytes must parse. -/
def isValidHuffmanFile (buf : List Nat) : Bool :=
  if buf.length < 7 then false
  else
    let padding := buf.getD 0 0
    let treeSize := buf.getD 1 0 * 256 + buf.getD 2 0
    if padding > 7 ∨ treeSize = 0 ∨ treeSize > 65535 then false
    else if buf.length ≤ 7 + treeSize then false
    else
      match readTree ((buf.drop 7).take treeSize) with
      | .ok _ => true
      | .error _ => false

/-- The bit-consuming decode walk: step to the chosen child, a null child
is a hard error, reaching a leaf emits its byte and resets to the root,
decoding stops early once originalSize bytes have been produced. -/
def huffWalk (root : HTree) (orig : Int) (bits : List Bool) (cur : HTree)
    (out : List Nat) : Except String (List Nat) :=
  match bits with
  | [] => .ok out
  | bit :: rest =>
    let child := match cur with
      | .node l r => if bit then r else l
      | _ => HTree.nil
    match child with
    | .nil => .error "Huffman tree traversal error: reached null node"
    | .leaf b =>
      if ((out.length : Int) + 1 = orig) then .ok (out ++ [b])
      else huffWalk root orig rest root (out ++ [b])
    | .node l2 r2 => huffWalk root orig rest (.node l2 r2) out

/-- performActualDecompression (huffman.js): reparse the header and tree,
expand the data section to bits most significant bit first, strip the
declared padding from the end, and walk the tree. -/
def Huffman.performActualDecompression (buf : List Nat) : Except String (List Nat) :=
  let padding := buf.getD 0 0
  let treeSize := buf.getD 1 0 * 256 + buf.getD 2 0
  let orig := readBE32At buf 3
  match readTree ((buf.drop 7).take treeSize) with
  | .error e => .error ("Failed to read Huffman tree: " ++ e)
  | .ok (tree, _) =>
    let data := buf.drop (7 + treeSize)
    if data.isEmpty then .error "No compressed data found in file"
    else
      let bits := (data.map byteToBits).flatten
      let bits2 := bits.take (bits.length - padding)
      huffWalk tree orig bits2 tree []

/-- decompressHuffman: when the sniffer rejects, the source performs a stray
compressHuffman call whose result is discarded before returning the buffer
unchanged; an exception from that call (empty input) escapes. -/
def decompressHuffman (buf : List Nat) : Except String (List Nat) :=
  if isValidHuffmanFile buf then Huffman.performActualDecompression buf
  else
    match compressHuffman buf with
    | .error e => .error e
    | .ok _ => .ok buf

/-! ## Claim theorems -/

set_option maxRecDepth 8000

theorem readTree_single_symbol_serialization :
    readTree [0, 1, 65] = .error "Unexpected end of Huffman tree data." := by
  unfold readTree
  simp [readTree_leaf, readTree_nil]

/-- C1.  The round-trip decompress(compress(x)) = x fails on the code: for
the one-byte buffer [62] (the character greater-than), LZ77 compression
emits the token text <0,0,>> whose trailing literal is re-parsed as an
empty optional char, the sniffer accepts the stream, and decompression
returns the empty buffer instead of [62]. -/
theorem C1_roundtrip_fails_for_lz77_gt_byte :
    compressLZ77 [62] = [60, 48, 44, 48, 44, 62, 62] ∧
    decompressLZ77 (compressLZ77 [62]) = .ok ([] : List Nat) := by
  have hc : compressLZ77 [62] = [60, 48, 44, 48, 44, 62, 62] := by
    simp [compressLZ77, lzBody, bestMatch, tokenBytes, decDigits]
  refine ⟨hc, ?_⟩
  rw [hc]
  simp +decide [decompressLZ77, isValidLZ77File, tryToken, expectCode, parseNum, parseCharGt,
    isDigitCode, decVal, LZ77.performActualDecompression, lzApplyToken, lzCopyAux]

/-- C2.  Decompression of a sniffer-rejected buffer is not error-free for
every input: decompressHuffman performs a stray compressHuffman call on the
rejected buffer before returning it, and on the empty buffer that call
throws the empty-input error instead of returning the buffer unchanged. -/
theorem C2_huffman_decompress_empty_throws :
    decompressHuffman [] = .error "Cannot compress empty input" := by
  simp [decompressHuffman, isValidHuffmanFile, compressHuffman]

/-- C3.  Huffman-compressing one copy of byte 65 produces a container whose
tree is a single internal root wrapping one leaf (code 0 for the byte), but
Huffman-decompressing that container does not return [65]: writeTree emits
[0, 1, 65] for the one-child root while readTree requires two children
after marker 0, so the sniffer rejects the container and decompression
returns the whole container unchanged. -/
theorem C3_single_symbol_container_not_decoded :
    buildHuffmanTree (buildFrequencyTable [65]) = .node (.leaf 65) .nil ∧
    compressHuffman [65] = .ok [7, 0, 3, 0, 0, 0, 1, 0, 1, 65, 0] ∧
    decompressHuffman [7, 0, 3, 0, 0, 0, 1, 0, 1, 65, 0] =
      .ok [7, 0, 3, 0, 0, 0, 1, 0, 1, 65, 0] := by
  refine ⟨by simp [buildHuffmanTree, buildFrequencyTable, bumpFreq], ?_, ?_⟩
  · simp +decide [compressHuffman, buildFrequencyTable, bumpFreq, buildHuffmanTree, generateCodes,
      mapSet, encodeBits, lookupCode, writeTree, packBits, bitsToByte, be32]
  · simp +decide [decompressHuffman, isValidHuffmanFile, readTree_single_symbol_serialization,
      compressHuffman, buildFrequencyTable, bumpFreq, buildHuffmanTree, generateCodes, mapSet,
      encodeBits, lookupCode, writeTree, packBits, bitsToByte, be32, hufLoop_eq, hufSort, hufInsert]

/-! ### C4: structure of the RLE token stream -/

theorem countEq_replicate_append {b k cap : Nat} {rest : List Nat}
    (hk : k ≤ cap) (hrest : rest.head? ≠ some b) :
    countEq b (List.replicate k b ++ rest) cap = k := by
  induction k generalizing cap with
  | zero =>
    simp only [List.replicate_zero, List.nil_append]
    cases rest with
    | nil => cases cap <;> simp [countEq]
    | cons c cs =>
      have hcb : c ≠ b := by
        intro h
        exact hrest (by simp [h])
      cases cap with
      | zero => simp [countEq]
      | succ cap2 => simp [countEq, hcb]
  | succ k2 ih =>
    cases cap with
    | zero => omega
    | succ cap2 =>
      rw [List.replicate_succ, List.cons_append]
      show (if b = b then countEq b (List.replicate k2 b ++ rest) cap2 + 1 else 0) = k2 + 1
      rw [if_pos rfl, ih (by omega)]

theorem countEq_replicate_ge {b k cap : Nat} {rest : List Nat} (hk : cap ≤ k) :
    countEq b (List.replicate k b ++ rest) cap = cap := by
  induction cap generalizing k with
  | zero => simp [countEq]
  | succ cap2 ih =>
    obtain ⟨k2, rfl⟩ : ∃ k2, k = k2 + 1 := ⟨k - 1, by omega⟩
    rw [List.replicate_succ, List.cons_append]
    show (if b = b then countEq b (List.replicate k2 b ++ rest) cap2 + 1 else 0) = cap2 + 1
    rw [if_pos rfl, ih (by omega)]

@[simp]
theorem rleBody_nil : rleBody [] = [] := by
  unfold rleBody
  rfl

theorem rleBody_run (b r : Nat) (rest : List Nat) (h3 : 3 ≤ r) (h255 : r ≤ 255)
    (hnext : rest.head? ≠ some b ∨ r = 255) :
    rleBody (List.replicate r b ++ rest) = 255 :: b :: r :: rleBody rest := by
  obtain ⟨r2, rfl⟩ : ∃ r2, r = r2 + 1 := ⟨r - 1, by omega⟩
  have hcount : countEq b (List.replicate r2 b ++ rest) 254 = r2 := by
    rcases hnext with h | h
    · exact countEq_replicate_append (by omega) h
    · have hr2 : r2 = 254 := by omega
      subst hr2
      exact countEq_replicate_ge (le_refl 254)
  rw [List.replicate_succ, List.cons_append]
  conv_lhs => unfold rleBody
  simp only [hcount]
  rw [if_pos (by omega)]
  have hdrop : (List.replicate r2 b ++ rest).drop r2 = rest := by
    have := List.drop_left (List.replicate r2 b) rest
    rwa [List.length_replicate] at this
  rw [hdrop]

theorem rleBody_literal (b r : Nat) (rest : List Nat) (h1 : 1 ≤ r) (h2 : r ≤ 2)
    (hnext : rest.head? ≠ some b) :
    rleBody (List.replicate r b ++ rest) =
      (List.replicate r (if b = 255 then [255, 255, 1] else [b])).flatten
        ++ rleBody rest := by
  obtain ⟨r2, rfl⟩ : ∃ r2, r = r2 + 1 := ⟨r - 1, by omega⟩
  have hcount : countEq b (List.replicate r2 b ++ rest) 254 = r2 :=
    countEq_replicate_append (by omega) hnext
  rw [List.replicate_succ, List.cons_append]
  conv_lhs => unfold rleBody
  simp only [hcount]
  rw [if_neg (by omega)]
  have hdrop : (List.replicate r2 b ++ rest).drop r2 = rest := by
    have := List.drop_left (List.replicate r2 b) rest
    rwa [List.length_replicate] at this
  rw [hdrop]
  have htake : (b :: (List.replicate r2 b ++ rest)).take (r2 + 1)
      = List.replicate (r2 + 1) b := by
    rw [← List.cons_append, ← List.replicate_succ]
    have := List.take_left (List.replicate (r2 + 1) b) rest
    rwa [List.length_replicate] at this
  rw [htake, List.map_replicate]

/-- C4.  The RLE compressor emits, per maximal run (capped at 255), either
the 3-byte escape token or escaped literals: the top-level container is the
6-byte header followed by the token stream; a capped run of length at least
3 becomes [0xFF, byte, runLength] and the scan advances past the run; runs
of length 1 or 2 are emitted literally with literal 0xFF escaped as
[0xFF, 0xFF, 1]; consequently a run of exactly 255 equal bytes is one
token, and a run of 256 is a 255-token followed by a length-1 run emitted
as a literal. -/
theorem C4_rle_compression_scan_structure :
    (∀ x : List Nat, x ≠ [] →
      compressRLE x = .ok (be32 x.length ++ [225, 255] ++ rleBody x)) ∧
    (∀ b r rest, 3 ≤ r → r ≤ 255 → (rest.head? ≠ some b ∨ r = 255) →
      rleBody (List.replicate r b ++ rest) = 255 :: b :: r :: rleBody rest) ∧
    (∀ b r rest, 1 ≤ r → r ≤ 2 → rest.head? ≠ some b →
      rleBody (List.replicate r b ++ rest) =
        (List.replicate r (if b = 255 then [255, 255, 1] else [b])).flatten
          ++ rleBody rest) ∧
    (∀ b, rleBody (List.replicate 255 b) = [255, b, 255]) ∧
    (∀ b, rleBody (List.replicate 256 b) =
      [255, b, 255] ++ (if b = 255 then [255, 255, 1] else [b])) := by
  refine ⟨?_, rleBody_run, rleBody_literal, ?_, ?_⟩
  · intro x hx
    rw [compressRLE, if_neg (by simpa using hx)]
  · intro b
    have h := rleBody_run b 255 [] (by omega) (by omega) (Or.inl (by simp))
    simpa using h
  · intro b
    have h256 : List.replicate 256 b = List.replicate 255 b ++ [b] := by
      have : (256 : Nat) = 255 + 1 := rfl
      rw [this, List.replicate_add]
      simp
    rw [h256, rleBody_run b 255 [b] (by omega) (by omega) (Or.inr rfl)]
    have hone := rleBody_literal b 1 [] (by omega) (by omega) (by simp)
    simp only [List.replicate_one] at hone
    simp only [List.append_nil] at hone
    rw [hone]
    simp

/-- Witness for C4 at concrete inputs: a run of 255 nines, a run of 256
nines, a run of 256 escape bytes, a short run of two escape bytes, and the
full compressRLE container of a 4-byte run. -/
theorem C4_rle_compression_scan_structure_witness :
    rleBody (List.replicate 255 9) = [255, 9, 255] ∧
    rleBody (List.replicate 256 9) = [255, 9, 255, 9] ∧
    rleBody (List.replicate 256 255) = [255, 255, 255, 255, 255, 1] ∧
    rleBody (List.replicate 2 255 ++ [7]) = [255, 255, 1, 255, 255, 1] ++ rleBody [7] ∧
    compressRLE [9, 9, 9, 9] = .ok (be32 4 ++ [225, 255] ++ rleBody [9, 9, 9, 9]) := by
  have h := C4_rle_compression_scan_structure
  refine ⟨by simpa using h.2.2.2.1 9, by simpa using h.2.2.2.2 9,
          by simpa using h.2.2.2.2 255, ?_, ?_⟩
  · have := h.2.2.1 255 2 [7] (by omega) (by omega) (by simp)
    simpa using this
  · have := h.1 [9, 9, 9, 9] (by simp)
    simpa using this

/-! ### C5: behavior of the RLE decompression loop -/

theorem rleLoop_cons (esc : Nat) (orig : Int) (c : Nat) (rest out : List Nat) :
    rleLoop esc orig (c :: rest) out =
      if (out.length : Int) < orig then
        if c = esc then
          match rest with
          | d :: r :: rest2 =>
            if r = 0 then .error "Invalid RLE run length: 0"
            else if r > 255 then .error "Invalid RLE run length above maximum"
            else rleLoop esc orig rest2
              (out ++ List.replicate (min r (orig - out.length).toNat) d)
          | _ => .error "Incomplete RLE escape sequence"
        else rleLoop esc orig rest (out ++ [c])
      else .ok out := by
  conv_lhs => unfold rleLoop

theorem rleLoop_stop (esc : Nat) (orig : Int) (comp out : List Nat)
    (hge : orig ≤ (out.length : Int)) : rleLoop esc orig comp out = .ok out := by
  unfold rleLoop
  rw [if_neg (by omega)]

theorem rleLoop_exhausted (esc : Nat) (orig : Int) (out : List Nat) :
    rleLoop esc orig [] out = .ok out := by
  unfold rleLoop
  split
  · rfl
  · rfl

/-- C5.  On a sniffer-accepted buffer, RLE decompression runs the token
loop with the stored escape byte and declared original length; inside the
loop an escape byte with fewer than two following bytes is the incomplete
escape error, an escape with run length zero is the zero-run error, an
escape with byte value d and run length r appends d exactly
min r (orig - produced) times (capping the output at the declared length),
a non-escape byte is appended literally, the loop stops returning ok as
soon as the declared length has been produced, and exhausting the input
early is not an error (count mismatch is only a warning). -/
theorem C5_rle_decompression_loop_behavior :
    (∀ buf : List Nat, isValidRLEFile buf = true →
      decompressRLE buf = rleLoop (buf.getD 5 0) (readBE32At buf 0) (buf.drop 6) []) ∧
    (∀ (esc : Nat) (orig : Int) (rest out : List Nat),
      (out.length : Int) < orig → rest.length < 2 →
      rleLoop esc orig (esc :: rest) out = .error "Incomplete RLE escape sequence") ∧
    (∀ (esc : Nat) (orig : Int) (d : Nat) (rest2 out : List Nat),
      (out.length : Int) < orig →
      rleLoop esc orig (esc :: d :: 0 :: rest2) out = .error "Invalid RLE run length: 0") ∧
    (∀ (esc : Nat) (orig : Int) (d r : Nat) (rest2 out : List Nat),
      (out.length : Int) < orig → 1 ≤ r → r ≤ 255 →
      rleLoop esc orig (esc :: d :: r :: rest2) out =
        rleLoop esc orig rest2
          (out ++ List.replicate (min r (orig - out.length).toNat) d)) ∧
    (∀ (esc : Nat) (orig : Int) (c : Nat) (rest out : List Nat),
      (out.length : Int) < orig → c ≠ esc →
      rleLoop esc orig (c :: rest) out = rleLoop esc orig rest (out ++ [c])) ∧
    (∀ (esc : Nat) (orig : Int) (comp out : List Nat),
      orig ≤ (out.length : Int) → rleLoop esc orig comp out = .ok out) ∧
    (∀ (esc : Nat) (orig : Int) (out : List Nat),
      rleLoop esc orig [] out = .ok out) := by
  refine ⟨?_, ?_, ?_, ?_, ?_, rleLoop_stop, rleLoop_exhausted⟩
  · intro buf hv
    rw [decompressRLE, if_pos hv]
    rfl
  · intro esc orig rest out hlt hshort
    rw [rleLoop_cons, if_pos hlt, if_pos rfl]
    match rest with
    | [] => rfl
    | [d] => rfl
    | d :: r :: rest2 => exact absurd hshort (by simp)
  · intro esc orig d rest2 out hlt
    rw [rleLoop_cons, if_pos hlt, if_pos rfl]
    rfl
  · intro esc orig d r rest2 out hlt h1 h255
    rw [rleLoop_cons, if_pos hlt, if_pos rfl]
    show (if r = 0 then Except.error "Invalid RLE run length: 0"
          else if r > 255 then Except.error "Invalid RLE run length above maximum"
          else rleLoop esc orig rest2
            (out ++ List.replicate (min r (orig - out.length).toNat) d)) = _
    rw [if_neg (by omega), if_neg (by omega)]
  · intro esc orig c rest out hlt hne
    rw [rleLoop_cons, if_pos hlt, if_neg hne]

/-- Witness for C5 at concrete inputs: a sniffer-accepted header, a
truncated escape, a zero run length, a capped run append, a literal byte,
and the early-stop and exhausted-input cases. -/
theorem C5_rle_decompression_loop_behavior_witness :
    decompressRLE [0, 0, 0, 2, 225, 255, 7, 7] =
      rleLoop 255 2 [7, 7] [] ∧
    rleLoop 255 3 [255, 7] [] = .error "Incomplete RLE escape sequence" ∧
    rleLoop 255 3 [255, 7, 0, 1] [] = .error "Invalid RLE run length: 0" ∧
    rleLoop 255 3 [255, 7, 200] [] = rleLoop 255 3 [] (List.replicate 3 7) ∧
    rleLoop 255 3 [9] [] = rleLoop 255 3 [] [9] ∧
    rleLoop 255 1 [255] [5] = .ok [5] ∧
    rleLoop 255 9 [] [5] = .ok [5] := by
  have h := C5_rle_decompression_loop_behavior
  refine ⟨?_, ?_, ?_, ?_, ?_, ?_, ?_⟩
  · have hv : isValidRLEFile [0, 0, 0, 2, 225, 255, 7, 7] = true := by decide
    have := h.1 [0, 0, 0, 2, 225, 255, 7, 7] hv
    simpa [readBE32At, toI32] using this
  · exact h.2.1 255 3 [7] [] (by simp) (by simp)
  · exact h.2.2.1 255 3 7 [1] [] (by simp)
  · have := h.2.2.2.1 255 3 7 200 [] [] (by simp) (by omega) (by omega)
    simpa using this
  · have := h.2.2.2.2.1 255 3 9 [] [] (by simp) (by omega)
    simpa using this
  · exact h.2.2.2.2.2.1 255 1 [255] [5] (by simp)
  · exact h.2.2.2.2.2.2 255 9 [5]

/-! ### C6: the LZ77 match search and token emission -/

/-- One step of the match-search fold, named for proof convenience;
definitionally equal to the lambda inside bestMatch. -/
def bmStep (sb la : List Nat) (best : Nat × Nat) (j : Nat) : Nat × Nat :=
  if best.2 < commonPrefixLen (sb.drop j) la
  then (sb.length - j, commonPrefixLen (sb.drop j) la) else best

theorem bestMatch_eq_fold (sb la : List Nat) :
    bestMatch sb la = (List.range sb.length).foldl (bmStep sb la) (0, 0) := rfl

theorem bmFold_spec (sb la : List Nat) (n : Nat) :
    (∀ j, j < n → commonPrefixLen (sb.drop j) la ≤
      ((List.range n).foldl (bmStep sb la) (0, 0)).2) ∧
    (((List.range n).foldl (bmStep sb la) (0, 0)).2 = 0 →
      (List.range n).foldl (bmStep sb la) (0, 0) = (0, 0)) ∧
    (0 < ((List.range n).foldl (bmStep sb la) (0, 0)).2 → ∃ j, j < n ∧
      commonPrefixLen (sb.drop j) la =
        ((List.range n).foldl (bmStep sb la) (0, 0)).2 ∧
      ((List.range n).foldl (bmStep sb la) (0, 0)).1 = sb.length - j ∧
      ∀ j2, j2 < j → commonPrefixLen (sb.drop j2) la <
        ((List.range n).foldl (bmStep sb la) (0, 0)).2) := by
  induction n with
  | zero => simp
  | succ n ih =>
    have hstep : (List.range (n + 1)).foldl (bmStep sb la) (0, 0)
        = bmStep sb la ((List.range n).foldl (bmStep sb la) (0, 0)) n := by
      rw [List.range_succ, List.foldl_append]
      rfl
    obtain ⟨ih1, ih2, ih3⟩ := ih
    rw [hstep]
    by_cases hlt : ((List.range n).foldl (bmStep sb la) (0, 0)).2 <
        commonPrefixLen (sb.drop n) la
    · simp only [bmStep, if_pos hlt]
      refine ⟨?_, ?_, ?_⟩
      · intro j hj
        rcases Nat.lt_succ_iff_lt_or_eq.mp hj with h | h
        · exact le_of_lt (lt_of_le_of_lt (ih1 j h) hlt)
        · subst h
          exact le_refl _
      · intro h0
        have h2 : commonPrefixLen (sb.drop n) la = 0 := h0
        omega
      · intro _
        refine ⟨n, Nat.lt_succ_self n, rfl, rfl, ?_⟩
        intro j2 hj2
        exact lt_of_le_of_lt (ih1 j2 hj2) hlt
    · simp only [bmStep, if_neg hlt]
      refine ⟨?_, ih2, ?_⟩
      · intro j hj
        rcases Nat.lt_succ_iff_lt_or_eq.mp hj with h | h
        · exact ih1 j h
        · subst h
          omega
      · intro hpos
        obtain ⟨j, hj, h1, h2, h3⟩ := ih3 hpos
        exact ⟨j, Nat.lt_succ_of_lt hj, h1, h2, h3⟩

/-- C6.  At every position i, the compressor emits the token of the best
match followed by the rest of the stream from i + matchLength + 1 (so the
next literal byte is input[i + matchLength], absent at end of input), and
the best match satisfies: its length is the maximum common-prefix length
over all window offsets; a positive best length is attained at the first
(oldest) offset j achieving it, with distance window.length - j, all
earlier offsets matching strictly shorter; an all-zero search leaves the
initial pair (0, 0). -/
theorem C6_lz77_match_search_and_emission :
    (∀ (input : List Nat) (i : Nat), i < input.length →
      lzBody input i =
        tokenBytes
          (bestMatch ((input.take i).drop (i - 2048)) ((input.drop i).take 32)).1
          (bestMatch ((input.take i).drop (i - 2048)) ((input.drop i).take 32)).2
          (input.get?
            (i + (bestMatch ((input.take i).drop (i - 2048)) ((input.drop i).take 32)).2))
        ++ lzBody input
            (i + (bestMatch ((input.take i).drop (i - 2048)) ((input.drop i).take 32)).2 + 1)) ∧
    (∀ sb la : List Nat,
      (∀ j, j < sb.length → commonPrefixLen (sb.drop j) la ≤ (bestMatch sb la).2) ∧
      ((bestMatch sb la).2 = 0 → bestMatch sb la = (0, 0)) ∧
      (0 < (bestMatch sb la).2 → ∃ j, j < sb.length ∧
        commonPrefixLen (sb.drop j) la = (bestMatch sb la).2 ∧
        (bestMatch sb la).1 = sb.length - j ∧
        ∀ j2, j2 < j → commonPrefixLen (sb.drop j2) la < (bestMatch sb la).2)) := by
  constructor
  · intro input i h
    conv_lhs => unfold lzBody
    rw [dif_pos h]
  · intro sb la
    rw [bestMatch_eq_fold]
    exact bmFold_spec sb la sb.length

/-- Witness for C6 at a concrete input: in ABAB at position 2 the best
match is (distance 2, length 2) with no next byte inside the lookahead
chain, and the match-search facts hold for the window AB against the
lookahead AB. -/
theorem C6_lz77_match_search_and_emission_witness :
    lzBody [65, 66, 65, 66] 2 = tokenBytes 2 2 none ++ lzBody [65, 66, 65, 66] 5 ∧
    commonPrefixLen ([65, 66].drop 1) [65, 66] ≤ (bestMatch [65, 66] [65, 66]).2 := by
  have h := C6_lz77_match_search_and_emission
  constructor
  · have h1 := h.1 [65, 66, 65, 66] 2 (by simp)
    have hb : bestMatch (([65, 66, 65, 66].take 2).drop (2 - 2048))
        (([65, 66, 65, 66].drop 2).take 32) = (2, 2) := by decide
    rw [hb] at h1
    simpa using h1
  · exact (h.2 [65, 66] [65, 66]).1 1 (by simp)

/-! ### C7: LZ77 back-reference copy semantics -/

theorem lzCopyAux_done (start len i : Nat) (out : List Nat) (h : len ≤ i) :
    lzCopyAux start len i out = .ok out := by
  unfold lzCopyAux
  rw [if_neg (by omega)]

theorem lzCopyAux_step (start len i : Nat) (out : List Nat) (h : i < len)
    (hin : start + i < out.length) :
    lzCopyAux start len i out =
      lzCopyAux start len (i + 1) (out ++ [out.getD (start + i) 0]) := by
  conv_lhs => unfold lzCopyAux
  rw [if_pos h, if_pos hin]

theorem lzCopyAux_oob (start len i : Nat) (out : List Nat) (h : i < len)
    (hout : ¬ start + i < out.length) :
    lzCopyAux start len i out = .error "LZ77 reference out of bounds" := by
  conv_lhs => unfold lzCopyAux
  rw [if_pos h, if_neg hout]

theorem lzCopyAux_cyclic (out : List Nat) (d len : Nat) (hd : 1 ≤ d)
    (hdL : d ≤ out.length) :
    ∀ (fuel i : Nat), i ≤ len → len - i ≤ fuel →
    lzCopyAux (out.length - d) len i
      (out ++ (List.range i).map (fun k => out.getD (out.length - d + k % d) 0)) =
    .ok (out ++ (List.range len).map (fun k => out.getD (out.length - d + k % d) 0)) := by
  intro fuel
  induction fuel with
  | zero =>
    intro i hi hfuel
    have : i = len := by omega
    subst this
    exact lzCopyAux_done _ _ _ _ (le_refl _)
  | succ fuel ih =>
    intro i hi hfuel
    rcases Nat.eq_or_lt_of_le hi with heq | hlt
    · subst heq
      exact lzCopyAux_done _ _ _ _ (le_refl _)
    · have hL : (out ++ (List.range i).map
          (fun k => out.getD (out.length - d + k % d) 0)).length = out.length + i := by
        simp
      have hin : out.length - d + i <
          (out ++ (List.range i).map
            (fun k => out.getD (out.length - d + k % d) 0)).length := by
        rw [hL]
        omega
      rw [lzCopyAux_step _ _ _ _ hlt hin]
      have hbyte : (out ++ (List.range i).map
            (fun k => out.getD (out.length - d + k % d) 0)).getD (out.length - d + i) 0 =
          out.getD (out.length - d + i % d) 0 := by
        by_cases hcase : i < d
        · rw [List.getD_append _ _ _ _ (by omega)]
          rw [Nat.mod_eq_of_lt hcase]
        · push_neg at hcase
          have hidx : out.length ≤ out.length - d + i := by omega
          rw [List.getD_eq_getElem?_getD, List.getElem?_append_right (by omega)]
          have hsub : out.length - d + i - out.length = i - d := by omega
          rw [hsub]
          have hlt2 : i - d < i := by omega
          rw [List.getElem?_map, List.getElem?_range hlt2]
          simp only [Option.map_some']
          have hmod : (i - d) % d = i % d := by
            conv_rhs => rw [← Nat.sub_add_cancel hcase]
            rw [Nat.add_mod_right]
          rw [hmod]
          rfl
      rw [hbyte]
      have happ : (out ++ (List.range i).map
            (fun k => out.getD (out.length - d + k % d) 0)) ++
            [out.getD (out.length - d + i % d) 0] =
          out ++ (List.range (i + 1)).map
            (fun k => out.getD (out.length - d + k % d) 0) := by
        rw [List.range_succ, List.map_append, List.append_assoc]
        rfl
      rw [happ]
      exact ih (i + 1) hlt (by omega)

/-- C7.  Applying one parsed token (distance, length, nextByte) to the
already-produced output: a distance above the output length is the
distance error; distance zero with positive length makes the very first
copied index fall outside the output, the out-of-bounds error; otherwise
(distance between 1 and the output length) the copy succeeds for every
length, appending length bytes read cyclically from the last distance
bytes of the output (the copy source starts at output.length - distance
and the output grows while copying, which realizes overlapping matches),
followed by the optional literal byte. -/
theorem C7_lz77_backreference_bounds_and_copy :
    (∀ (out : List Nat) (t : Nat × Nat × Option Nat), out.length < t.1 →
      lzApplyToken out t = .error "Invalid LZ77 distance") ∧
    (∀ (out : List Nat) (len : Nat) (c : Option Nat), 1 ≤ len →
      lzApplyToken out (0, len, c) = .error "LZ77 reference out of bounds") ∧
    (∀ (out : List Nat) (c : Option Nat),
      lzApplyToken out (0, 0, c) = .ok (out ++ c.toList)) ∧
    (∀ (out : List Nat) (d len : Nat) (c : Option Nat), 1 ≤ d → d ≤ out.length →
      lzApplyToken out (d, len, c) =
        .ok (out ++ (List.range len).map
          (fun k => out.getD (out.length - d + k % d) 0) ++ c.toList)) := by
  refine ⟨?_, ?_, ?_, ?_⟩
  · intro out t hgt
    simp only [lzApplyToken]
    rw [if_pos (by omega)]
  · intro out len c hlen
    simp only [lzApplyToken]
    rw [if_neg (by omega)]
    have hoob : lzCopyAux (out.length - 0) len 0 out =
        .error "LZ77 reference out of bounds" :=
      lzCopyAux_oob _ _ _ _ (by omega) (by omega)
    rw [hoob]
  · intro out c
    simp only [lzApplyToken]
    rw [if_neg (by omega)]
    rw [lzCopyAux_done _ _ _ _ (le_refl 0)]
  · intro out d len c hd hdL
    simp only [lzApplyToken]
    rw [if_neg (by omega)]
    have h0 := lzCopyAux_cyclic out d len hd hdL len 0 (by omega) (by omega)
    simp only [List.range_zero, List.map_nil, List.append_nil] at h0
    rw [h0]

/-- Witness for C7 at concrete inputs: a distance past the output, a
zero-distance positive-length copy, an empty token, and an overlapping
copy of four bytes at distance two out of a three-byte output. -/
theorem C7_lz77_backreference_bounds_and_copy_witness :
    lzApplyToken [] (1, 0, none) = .error "Invalid LZ77 distance" ∧
    lzApplyToken [1] (0, 1, none) = .error "LZ77 reference out of bounds" ∧
    lzApplyToken [1] (0, 0, some 9) = .ok [1, 9] ∧
    lzApplyToken [1, 2, 3] (2, 4, some 9) = .ok [1, 2, 3, 2, 3, 2, 3, 9] := by
  have h := C7_lz77_backreference_bounds_and_copy
  refine ⟨h.1 [] (1, 0, none) (by simp), h.2.1 [1] 1 none (by omega), ?_, ?_⟩
  · have := h.2.2.1 [1] (some 9)
    simpa using this
  · have := h.2.2.2 [1, 2, 3] 2 4 (some 9) (by omega) (by simp)
    simpa using this

/-! ### C10: non-token bytes are skipped by the LZ77 decompressor -/

theorem decDigits_all_digits (n : Nat) : ∀ c ∈ decDigits n, isDigitCode c = true := by
  induction n using Nat.strong_induction_on with
  | _ n ih =>
    rw [decDigits]
    by_cases h : n < 10
    · rw [if_pos h]
      intro c hc
      simp at hc
      subst hc
      simp [isDigitCode]
      omega
    · rw [if_neg h]
      intro c hc
      rcases List.mem_append.mp hc with h1 | h1
      · exact ih (n / 10) (Nat.div_lt_self (by omega) (by omega)) c h1
      · simp at h1
        subst h1
        simp [isDigitCode]
        have := Nat.mod_lt n (show 0 < 10 by omega)
        omega

theorem decDigits_ne_nil (n : Nat) : decDigits n ≠ [] := by
  rw [decDigits]
  by_cases h : n < 10
  · rw [if_pos h]
    simp
  · rw [if_neg h]
    simp

theorem decDigits_foldl (n a : Nat) :
    (decDigits n).foldl (fun a d => 10 * a + (d - 48)) a =
      a * 10 ^ (decDigits n).length + n := by
  induction n using Nat.strong_induction_on generalizing a with
  | _ n ih =>
    rw [decDigits]
    by_cases h : n < 10
    · rw [if_pos h]
      simp
      omega
    · rw [if_neg h]
      rw [List.foldl_append]
      rw [ih (n / 10) (Nat.div_lt_self (by omega) (by omega)) a]
      simp only [List.foldl_cons, List.foldl_nil, List.length_append, List.length_cons,
        List.length_nil]
      have hmod : 48 + n % 10 - 48 = n % 10 := by omega
      rw [hmod]
      rw [pow_succ]
      have hdm := Nat.div_add_mod n 10
      ring_nf
      omega

theorem decVal_decDigits (n : Nat) : decVal (decDigits n) = n := by
  have := decDigits_foldl n 0
  simpa [decVal] using this

theorem takeWhile_digits_append (ds : List Nat) (c : Nat) (rest : List Nat)
    (hds : ∀ x ∈ ds, isDigitCode x = true) (hc : isDigitCode c = false) :
    (ds ++ c :: rest).takeWhile isDigitCode = ds ∧
    (ds ++ c :: rest).dropWhile isDigitCode = c :: rest := by
  induction ds with
  | nil =>
    constructor
    · simp [List.takeWhile_cons, hc]
    · simp [List.dropWhile_cons, hc]
  | cons d ds ih =>
    have hd : isDigitCode d = true := hds d (by simp)
    have hrec := ih (fun x hx => hds x (by simp [hx]))
    constructor
    · simp only [List.cons_append, List.takeWhile_cons, hd]
      simp [hrec.1]
    · simp only [List.cons_append, List.dropWhile_cons, hd]
      simp [hrec.2]

theorem tryToken_none_of_head (c : Nat) (l : List Nat) (hc : c ≠ 60) :
    tryToken (c :: l) = none := by
  simp [tryToken, expectCode, hc]

theorem tryToken_tokenBytes (d len : Nat) (c : Option Nat) (hc : c ≠ some 62)
    (rest : List Nat) :
    tryToken (tokenBytes d len c ++ rest) = some ((d, len, c), rest) := by
  have hdd := decDigits_all_digits d
  have hdl := decDigits_all_digits len
  have hcomma : isDigitCode 44 = false := by decide
  have h1 := takeWhile_digits_append (decDigits d) 44
    (decDigits len ++ 44 :: (c.toList ++ 62 :: rest)) hdd hcomma
  have h2 := takeWhile_digits_append (decDigits len) 44 (c.toList ++ 62 :: rest) hdl hcomma
  have hshape : tokenBytes d len c ++ rest =
      60 :: (decDigits d ++ 44 :: (decDigits len ++ 44 :: (c.toList ++ 62 :: rest))) := by
    simp [tokenBytes]
  have e1 : expectCode 60 (60 :: (decDigits d ++ 44 ::
        (decDigits len ++ 44 :: (c.toList ++ 62 :: rest)))) =
      some (decDigits d ++ 44 :: (decDigits len ++ 44 :: (c.toList ++ 62 :: rest))) := by
    simp [expectCode]
  have e2 : parseNum (decDigits d ++ 44 :: (decDigits len ++ 44 :: (c.toList ++ 62 :: rest))) =
      some (d, 44 :: (decDigits len ++ 44 :: (c.toList ++ 62 :: rest))) := by
    simp only [parseNum, h1.1, h1.2]
    rw [if_neg (by simpa using decDigits_ne_nil d)]
    rw [decVal_decDigits]
  have e3 : expectCode 44 (44 :: (decDigits len ++ 44 :: (c.toList ++ 62 :: rest))) =
      some (decDigits len ++ 44 :: (c.toList ++ 62 :: rest)) := by
    simp [expectCode]
  have e4 : parseNum (decDigits len ++ 44 :: (c.toList ++ 62 :: rest)) =
      some (len, 44 :: (c.toList ++ 62 :: rest)) := by
    simp only [parseNum, h2.1, h2.2]
    rw [if_neg (by simpa using decDigits_ne_nil len)]
    rw [decVal_decDigits]
  have e5 : expectCode 44 (44 :: (c.toList ++ 62 :: rest)) = some (c.toList ++ 62 :: rest) := by
    simp [expectCode]
  have e6 : parseCharGt (c.toList ++ 62 :: rest) = some (c, rest) := by
    match c with
    | none => simp [parseCharGt]
    | some ch =>
      have hch : ch ≠ 62 := by
        intro habs
        exact hc (by rw [habs])
      simp [parseCharGt, hch]
  rw [hshape]
  simp only [tryToken, e1, e2, e3, e4, e5, e6, Option.bind_eq_bind, Option.some_bind,
    Option.pure_def]

theorem scanTokens_skip (c : Nat) (l : List Nat) (hc : c ≠ 60) :
    scanTokens (c :: l) = scanTokens l := by
  rw [scanTokens_cons, tryToken_none_of_head c l hc]

theorem scanTokens_garbage (g l : List Nat) (hg : ∀ x ∈ g, x ≠ 60) :
    scanTokens (g ++ l) = scanTokens l := by
  induction g with
  | nil => simp
  | cons x g ih =>
    rw [List.cons_append, scanTokens_skip x (g ++ l) (hg x (by simp))]
    exact ih (fun y hy => hg y (by simp [hy]))

theorem scanTokens_token (d len : Nat) (c : Option Nat) (hc : c ≠ some 62)
    (rest : List Nat) :
    scanTokens (tokenBytes d len c ++ rest) = (d, len, c) :: scanTokens rest := by
  have hshape : tokenBytes d len c ++ rest =
      60 :: (decDigits d ++ 44 :: (decDigits len ++ 44 :: (c.toList ++ 62 :: rest))) := by
    simp [tokenBytes]
  have htok := tryToken_tokenBytes d len c hc rest
  rw [hshape] at htok ⊢
  rw [scanTokens_cons, htok]

/-- Interleaving of garbage segments and token texts used to state C10:
each pair contributes its garbage bytes then its token's text, and the
trailing garbage closes the stream. -/
def glueLZ (ps : List (List Nat × (Nat × Nat × Option Nat))) (tail : List Nat) : List Nat :=
  ps.foldr (fun p acc => p.1 ++ tokenBytes p.2.1 p.2.2.1 p.2.2.2 ++ acc) tail

/-- C10.  The LZ77 decompressor's output is determined solely by the
sequence of regex-matched tokens: decompression folds the token
applications over exactly scanTokens, and bytes outside well-formed tokens
are dropped: interleaving arbitrary token-free garbage (no character 60,
so no token can start inside it) between well-formed token texts (next
byte not 62) leaves both the scanned token list and the decompressed
output exactly those of the tokens alone. -/
theorem C10_lz77_nontoken_bytes_skipped :
    (∀ buf : List Nat,
      LZ77.performActualDecompression buf = (scanTokens buf).foldlM lzApplyToken []) ∧
    (∀ (ps : List (List Nat × (Nat × Nat × Option Nat))) (tail : List Nat),
      (∀ p ∈ ps, (∀ x ∈ p.1, x ≠ 60) ∧ p.2.2.2 ≠ some 62) →
      (∀ x ∈ tail, x ≠ 60) →
      scanTokens (glueLZ ps tail) = ps.map (fun p => p.2) ∧
      LZ77.performActualDecompression (glueLZ ps tail) =
        (ps.map (fun p => p.2)).foldlM lzApplyToken []) := by
  have hperf : ∀ buf : List Nat,
      LZ77.performActualDecompression buf = (scanTokens buf).foldlM lzApplyToken [] :=
    fun _ => rfl
  refine ⟨hperf, ?_⟩
  intro ps tail hps htail
  have hscan : scanTokens (glueLZ ps tail) = ps.map (fun p => p.2) := by
    induction ps with
    | nil =>
      have : glueLZ [] tail = tail := rfl
      rw [this]
      have := scanTokens_garbage tail [] htail
      simpa using this
    | cons p ps ih =>
      have hglue : glueLZ (p :: ps) tail =
          p.1 ++ (tokenBytes p.2.1 p.2.2.1 p.2.2.2 ++ glueLZ ps tail) := by
        simp [glueLZ, List.append_assoc]
      rw [hglue]
      rw [scanTokens_garbage p.1 _ (hps p (by simp)).1]
      rw [scanTokens_token p.2.1 p.2.2.1 p.2.2.2 (hps p (by simp)).2]
      rw [ih (fun q hq => hps q (by simp [hq]))]
      rfl
  exact ⟨hscan, by rw [hperf, hscan]⟩

/-- Witness for C10 at a concrete input: the garbage byte 97 before the
token text of (0, 0, 65) and the trailing garbage byte 98 contribute
nothing; the scan yields exactly that token and decompression emits just
its literal byte. -/
theorem C10_lz77_nontoken_bytes_skipped_witness :
    scanTokens [97, 60, 48, 44, 48, 44, 65, 62, 98] = [(0, 0, some 65)] ∧
    LZ77.performActualDecompression [97, 60, 48, 44, 48, 44, 65, 62, 98] = .ok [65] := by
  have h := (C10_lz77_nontoken_bytes_skipped).2
    [([97], (0, 0, some 65))] [98]
    (by
      intro p hp
      simp at hp
      subst hp
      refine ⟨by simp, by simp⟩)
    (by simp)
  have hd0 : decDigits 0 = [48] := by
    rw [decDigits]
    norm_num
  have hglue : glueLZ [([97], (0, 0, some 65))] [98] =
      [97, 60, 48, 44, 48, 44, 65, 62, 98] := by
    simp [glueLZ, tokenBytes, hd0]
  rw [hglue] at h
  obtain ⟨h1, h2⟩ := h
  refine ⟨by simpa using h1, ?_⟩
  rw [h2]
  simp [lzApplyToken, lzCopyAux_done]

/-! ### C8: Huffman codes are prefix-free -/

/-- Follow a bit path from a node, stepping to the right child on true and
to the left child on false; nil children and leaves absorb any further
step. -/
def walkPath : HTree → List Bool → Option HTree
  | t, [] => some t
  | .node l r, bit :: p => walkPath (if bit then r else l) p
  | _, _ :: _ => none

theorem walkPath_append (t : HTree) (p q : List Bool) :
    walkPath t (p ++ q) = (walkPath t p).bind (fun s => walkPath s q) := by
  induction p generalizing t with
  | nil => simp [walkPath]
  | cons bit p ih =>
    match t with
    | .nil => simp [walkPath]
    | .leaf b => simp [walkPath]
    | .node l r =>
      rw [List.cons_append]
      show walkPath (if bit then r else l) (p ++ q) = _
      rw [ih]
      rfl

theorem mem_mapSet {m : List (Nat × List Bool)} {k : Nat} {v : List Bool}
    {b : Nat} {c : List Bool} (h : (b, c) ∈ mapSet m k v) :
    (b = k ∧ c = v) ∨ (b, c) ∈ m := by
  unfold mapSet at h
  split at h
  · obtain ⟨p, hp, heq⟩ := List.mem_map.mp h
    by_cases hk : p.1 = k
    · rw [if_pos hk] at heq
      left
      injection heq with h1 h2
      exact ⟨h1.symm, h2.symm⟩
    · rw [if_neg hk] at heq
      right
      rwa [heq] at hp
  · rcases List.mem_append.mp h with h1 | h1
    · right
      exact h1
    · left
      simp at h1
      exact h1

theorem mem_generateCodes (t : HTree) (pre : List Bool)
    (m : List (Nat × List Bool)) (b : Nat) (c : List Bool)
    (h : (b, c) ∈ generateCodes t pre m) :
    (∃ p, walkPath t p = some (.leaf b) ∧
      c = (if (pre ++ p).isEmpty then [false] else pre ++ p)) ∨ (b, c) ∈ m := by
  induction t generalizing pre m with
  | nil => exact Or.inr h
  | leaf b0 =>
    rcases mem_mapSet h with ⟨hb, hc⟩ | hm
    · subst hb
      left
      refine ⟨[], rfl, ?_⟩
      simpa using hc
    · exact Or.inr hm
  | node l r ihl ihr =>
    rcases ihr (pre ++ [true]) _ h with ⟨p, hp, hc⟩ | hm
    · left
      refine ⟨true :: p, ?_, ?_⟩
      · show walkPath (if true then r else l) p = some (.leaf b)
        simpa using hp
      · rw [hc]
        have : (pre ++ [true]) ++ p = pre ++ (true :: p) := by simp
        rw [this]
    · rcases ihl (pre ++ [false]) m hm with ⟨p, hp, hc⟩ | hm2
      · left
        refine ⟨false :: p, ?_, ?_⟩
        · show walkPath (if false then r else l) p = some (.leaf b)
          simpa using hp
        · rw [hc]
          have : (pre ++ [false]) ++ p = pre ++ (false :: p) := by simp
          rw [this]
      · exact Or.inr hm2

theorem bumpFreq_ne_nil (b : Nat) (m : List (Nat × Nat)) : bumpFreq b m ≠ [] := by
  match m with
  | [] => simp [bumpFreq]
  | (c, f) :: rest =>
    simp only [bumpFreq]
    split <;> simp

theorem buildFrequencyTable_ne_nil (x : List Nat) (hx : x ≠ []) :
    buildFrequencyTable x ≠ [] := by
  have general : ∀ (l : List Nat) (m : List (Nat × Nat)), m ≠ [] →
      l.foldl (fun m b => bumpFreq b m) m ≠ [] := by
    intro l
    induction l with
    | nil => intro m hm; exact hm
    | cons a l ih =>
      intro m _
      exact ih (bumpFreq a m) (bumpFreq_ne_nil a m)
  match x with
  | a :: l =>
    show (l.foldl (fun m b => bumpFreq b m) (bumpFreq a [])) ≠ []
    exact general l _ (bumpFreq_ne_nil a [])

theorem hufLoop_node_aux : ∀ (n : Nat) (l : List (HTree × Nat)), l.length = n →
    2 ≤ l.length → ∃ a b, hufLoop l = .node a b := by
  intro n
  induction n using Nat.strong_induction_on with
  | _ n ih =>
    intro l hn hl
    rw [hufLoop_eq, if_neg (by omega)]
    have hslen := hufSort_length l
    match hs : hufSort l with
    | [] =>
      rw [hs] at hslen
      simp at hslen
      omega
    | [a] =>
      rw [hs] at hslen
      simp at hslen
      omega
    | a :: b :: rest =>
      rw [hs] at hslen
      simp only [List.length_cons] at hslen
      match rest with
      | [] =>
        refine ⟨a.1, b.1, ?_⟩
        show hufLoop ([] ++ [((HTree.node a.1 b.1 : HTree), a.2 + b.2)]) = HTree.node a.1 b.1
        rw [List.nil_append, hufLoop_eq]
        simp
      | q :: rest2 =>
        have hlen2 : ((q :: rest2) ++
            [((HTree.node a.1 b.1 : HTree), a.2 + b.2)]).length = n - 1 := by
          simp only [List.length_append, List.length_cons, List.length_nil] at hslen ⊢
          omega
        exact ih (n - 1) (by omega) _ hlen2 (by
          simp only [List.length_append, List.length_cons, List.length_nil]
          omega)

theorem hufLoop_node (l : List (HTree × Nat)) (hl : 2 ≤ l.length) :
    ∃ a b, hufLoop l = .node a b :=
  hufLoop_node_aux l.length l rfl hl

theorem buildHuffmanTree_node (ft : List (Nat × Nat)) (hft : ft ≠ []) :
    ∃ a b, buildHuffmanTree ft = .node a b := by
  match ft with
  | [p] => exact ⟨.leaf p.1, .nil, rfl⟩
  | p :: q :: rest =>
    show ∃ a b, hufLoop ((p :: q :: rest).map fun p => ((HTree.leaf p.1 : HTree), p.2)) =
      HTree.node a b
    exact hufLoop_node _ (by simp)

/-- C8.  The code map generated over the tree built from any non-empty
buffer is prefix-free: two entries with distinct byte keys never have one
code a prefix of the other, because every code is the exact root-to-leaf
path of its byte in the tree and a path to one leaf cannot continue to
another. -/
theorem C8_huffman_codes_prefix_free (x : List Nat) (hx : x ≠ [])
    (b1 b2 : Nat) (c1 c2 : List Bool)
    (h1 : (b1, c1) ∈ generateCodes (buildHuffmanTree (buildFrequencyTable x)) [] [])
    (h2 : (b2, c2) ∈ generateCodes (buildHuffmanTree (buildFrequencyTable x)) [] [])
    (hne : b1 ≠ b2) : ¬ c1 <+: c2 := by
  intro hpre
  obtain ⟨l0, r0, htree⟩ :=
    buildHuffmanTree_node _ (buildFrequencyTable_ne_nil x hx)
  rw [htree] at h1 h2
  rcases mem_generateCodes _ [] [] _ _ h1 with ⟨p1, hw1, hc1⟩ | habs
  swap
  · simp at habs
  rcases mem_generateCodes _ [] [] _ _ h2 with ⟨p2, hw2, hc2⟩ | habs
  swap
  · simp at habs
  have hp1ne : p1 ≠ [] := by
    rintro rfl
    simp [walkPath] at hw1
  have hp2ne : p2 ≠ [] := by
    rintro rfl
    simp [walkPath] at hw2
  have hc1e : c1 = p1 := by
    rw [hc1, List.nil_append, if_neg (by simpa [List.isEmpty_iff] using hp1ne)]
  have hc2e : c2 = p2 := by
    rw [hc2, List.nil_append, if_neg (by simpa [List.isEmpty_iff] using hp2ne)]
  subst hc1e
  subst hc2e
  obtain ⟨q, hq⟩ := hpre
  rw [← hq, walkPath_append, hw1] at hw2
  match q with
  | [] =>
    simp [walkPath] at hw2
    exact hne hw2
  | c :: q2 =>
    simp [walkPath] at hw2

/-- Witness for C8 at a concrete input: in the buffer [65, 66, 66] the two
generated codes are the one-bit paths false and true, and neither is a
prefix of the other. -/
theorem C8_huffman_codes_prefix_free_witness :
    (65, [false]) ∈ generateCodes (buildHuffmanTree (buildFrequencyTable [65, 66, 66])) [] [] ∧
    (66, [true]) ∈ generateCodes (buildHuffmanTree (buildFrequencyTable [65, 66, 66])) [] [] ∧
    ¬ [false] <+: [true] := by
  have hcodes : generateCodes (buildHuffmanTree (buildFrequencyTable [65, 66, 66])) [] [] =
      [(65, [false]), (66, [true])] := by
    simp +decide [buildFrequencyTable, bumpFreq, buildHuffmanTree, hufLoop_eq, hufSort,
      hufInsert, generateCodes, mapSet]
  refine ⟨by rw [hcodes]; simp, by rw [hcodes]; simp, ?_⟩
  exact C8_huffman_codes_prefix_free [65, 66, 66] (by simp) 65 66 [false] [true]
    (by rw [hcodes]; simp) (by rw [hcodes]; simp) (by omega)

/-! ### C9: compression errors and the serialized tree size -/

/-- The leaf bytes of a tree in left-to-right order. -/
def leaves : HTree → List Nat
  | .nil => []
  | .leaf b => [b]
  | .node l r => leaves l ++ leaves r

/-- Trees in which every internal node has two real children; every tree
the merge loop builds from two or more leaves has this shape. -/
inductive FullTree : HTree → Prop
  | leaf (b : Nat) : FullTree (.leaf b)
  | node {l r : HTree} : FullTree l → FullTree r → FullTree (.node l r)

theorem writeTree_full_length {t : HTree} (h : FullTree t) :
    (writeTree t).length + 1 = 3 * (leaves t).length ∧ 1 ≤ (leaves t).length := by
  induction h with
  | leaf b => simp [writeTree, leaves]
  | node hl hr ihl ihr =>
    obtain ⟨el, nl⟩ := ihl
    obtain ⟨er, nr⟩ := ihr
    constructor
    · simp only [writeTree, leaves, List.length_append, List.length_cons]
      omega
    · simp only [leaves, List.length_append]
      omega

theorem hufInsert_perm (x : HTree × Nat) (l : List (HTree × Nat)) :
    (hufInsert x l).Perm (x :: l) := by
  induction l with
  | nil => simp [hufInsert]
  | cons y ys ih =>
    simp only [hufInsert]
    split
    · exact ((ih.cons y).trans (List.Perm.swap x y ys)).symm.symm
    · exact List.Perm.refl _

theorem hufSort_perm (l : List (HTree × Nat)) : (hufSort l).Perm l := by
  have general : ∀ (l acc : List (HTree × Nat)),
      (l.foldl (fun acc x => hufInsert x acc) acc).Perm (acc ++ l) := by
    intro l
    induction l with
    | nil => simp
    | cons x xs ih =>
      intro acc
      simp only [List.foldl_cons]
      refine (ih (hufInsert x acc)).trans ?_
      have h1 : (hufInsert x acc ++ xs).Perm ((x :: acc) ++ xs) :=
        (hufInsert_perm x acc).append_right xs
      refine h1.trans ?_
      rw [List.cons_append]
      exact List.perm_middle.symm
  simpa using general l []

/-- The concatenated leaf bytes of a working list of weighted trees. -/
def treeListLeaves (l : List (HTree × Nat)) : List Nat :=
  (l.map (fun p => leaves p.1)).flatten

theorem treeListLeaves_perm {l1 l2 : List (HTree × Nat)} (h : l1.Perm l2) :
    (treeListLeaves l1).Perm (treeListLeaves l2) := by
  unfold treeListLeaves
  exact (h.map _).flatten

theorem hufLoop_full_leaves : ∀ (n : Nat) (l : List (HTree × Nat)), l.length = n →
    1 ≤ l.length → (∀ p ∈ l, FullTree p.1) →
    FullTree (hufLoop l) ∧ (leaves (hufLoop l)).Perm (treeListLeaves l) := by
  intro n
  induction n using Nat.strong_induction_on with
  | _ n ih =>
    intro l hn hlen hfull
    match l with
    | [t] =>
      rw [hufLoop_eq]
      simp only [List.length_cons, List.length_nil]
      rw [if_pos (by omega)]
      refine ⟨hfull t (by simp), ?_⟩
      simp [treeListLeaves]
    | t1 :: t2 :: lrest =>
      rw [hufLoop_eq, if_neg (by simp)]
      have hslen := hufSort_length (t1 :: t2 :: lrest)
      have hsperm := hufSort_perm (t1 :: t2 :: lrest)
      match hs : hufSort (t1 :: t2 :: lrest) with
      | [] =>
        rw [hs] at hslen
        simp at hslen
      | [a] =>
        rw [hs] at hslen
        simp at hslen
      | a :: b :: rest =>
        rw [hs] at hslen hsperm
        have hfull2 : ∀ p ∈ a :: b :: rest, FullTree p.1 := by
          intro p hp
          exact hfull p (hsperm.mem_iff.mp hp)
        have hfa : FullTree a.1 := hfull2 a (by simp)
        have hfb : FullTree b.1 := hfull2 b (by simp)
        have hfullnew : ∀ p ∈ rest ++ [((HTree.node a.1 b.1 : HTree), a.2 + b.2)],
            FullTree p.1 := by
          intro p hp
          rcases List.mem_append.mp hp with hp1 | hp1
          · exact hfull2 p (by simp [hp1])
          · simp at hp1
            subst hp1
            exact FullTree.node hfa hfb
        have hlen2 : (rest ++ [((HTree.node a.1 b.1 : HTree), a.2 + b.2)]).length = n - 1 := by
          simp only [List.length_append, List.length_cons, List.length_nil] at hslen hn ⊢
          omega
        have hlen3 : 1 ≤ (rest ++ [((HTree.node a.1 b.1 : HTree), a.2 + b.2)]).length := by
          simp
        have hrec := ih (n - 1) (by
            simp only [List.length_cons] at hn
            omega) _ hlen2 hlen3 hfullnew
        refine ⟨hrec.1, ?_⟩
        refine hrec.2.trans ?_
        have hnew : treeListLeaves (rest ++ [((HTree.node a.1 b.1 : HTree), a.2 + b.2)]) =
            treeListLeaves rest ++ (leaves a.1 ++ leaves b.1) := by
          simp [treeListLeaves, leaves]
        have hold : treeListLeaves (a :: b :: rest) =
            leaves a.1 ++ (leaves b.1 ++ treeListLeaves rest) := by
          simp [treeListLeaves]
        rw [hnew]
        refine List.Perm.trans List.perm_append_comm ?_
        rw [List.append_assoc, ← hold]
        exact treeListLeaves_perm hsperm

theorem bumpFreq_keys (b : Nat) (m : List (Nat × Nat)) :
    (bumpFreq b m).map (fun p => p.1) =
      if b ∈ m.map (fun p => p.1) then m.map (fun p => p.1)
      else m.map (fun p => p.1) ++ [b] := by
  induction m with
  | nil => simp [bumpFreq]
  | cons p rest ih =>
    obtain ⟨c, f⟩ := p
    simp only [bumpFreq]
    by_cases hc : c = b
    · subst hc
      simp
    · rw [if_neg hc]
      simp only [List.map_cons]
      rw [ih]
      by_cases hbm : b ∈ rest.map (fun p => p.1)
      · rw [if_pos hbm, if_pos (by simp [hbm])]
      · rw [if_neg hbm, if_neg (by simp [hbm, Ne.symm hc])]
        simp

theorem freq_foldl_invariant (x : List Nat) : ∀ (m : List (Nat × Nat)),
    ((m.map (fun p => p.1)).Nodup) →
    (((x.foldl (fun m b => bumpFreq b m) m).map (fun p => p.1)).Nodup ∧
     (∀ k, k ∈ (x.foldl (fun m b => bumpFreq b m) m).map (fun p => p.1) →
        k ∈ m.map (fun p => p.1) ∨ k ∈ x) ∧
     (∀ k, k ∈ m.map (fun p => p.1) →
        k ∈ (x.foldl (fun m b => bumpFreq b m) m).map (fun p => p.1)) ∧
     (∀ b, b ∈ x → b ∈ (x.foldl (fun m b => bumpFreq b m) m).map (fun p => p.1))) := by
  induction x with
  | nil =>
    intro m hm
    refine ⟨hm, ?_, ?_, ?_⟩ <;> simp
  | cons a x ih =>
    intro m hm
    simp only [List.foldl_cons]
    have hkeys := bumpFreq_keys a m
    have hm2 : ((bumpFreq a m).map (fun p => p.1)).Nodup := by
      rw [hkeys]
      split
      · exact hm
      · rename_i hnot
        simp [List.nodup_append, hm, hnot]
    have hmem_a : a ∈ (bumpFreq a m).map (fun p => p.1) := by
      rw [hkeys]
      split
      · assumption
      · simp
    have hsup : ∀ k, k ∈ m.map (fun p => p.1) → k ∈ (bumpFreq a m).map (fun p => p.1) := by
      intro k hk
      rw [hkeys]
      split
      · exact hk
      · simp [hk]
    have hsub : ∀ k, k ∈ (bumpFreq a m).map (fun p => p.1) →
        k ∈ m.map (fun p => p.1) ∨ k = a := by
      intro k hk
      rw [hkeys] at hk
      split at hk
      · exact Or.inl hk
      · rcases List.mem_append.mp hk with h1 | h1
        · exact Or.inl h1
        · simp at h1
          exact Or.inr h1
    obtain ⟨i1, i2, i3, i4⟩ := ih (bumpFreq a m) hm2
    refine ⟨i1, ?_, ?_, ?_⟩
    · intro k hk
      rcases i2 k hk with h1 | h1
      · rcases hsub k h1 with h2 | h2
        · exact Or.inl h2
        · exact Or.inr (by simp [h2])
      · exact Or.inr (by simp [h1])
    · intro k hk
      exact i3 k (hsup k hk)
    · intro b hbx
      rcases List.mem_cons.mp hbx with h1 | h1
      · subst h1
        exact i3 b hmem_a
      · exact i4 b h1

theorem buildFrequencyTable_keys (x : List Nat) :
    (((buildFrequencyTable x).map (fun p => p.1)).Nodup) ∧
    (∀ k, k ∈ (buildFrequencyTable x).map (fun p => p.1) → k ∈ x) ∧
    (∀ b, b ∈ x → b ∈ (buildFrequencyTable x).map (fun p => p.1)) := by
  obtain ⟨i1, i2, _, i4⟩ := freq_foldl_invariant x [] (by simp)
  refine ⟨i1, ?_, i4⟩
  intro k hk
  rcases i2 k hk with h1 | h1
  · simp at h1
  · exact h1

theorem nodup_byte_list_length_le {l : List Nat} (h : l.Nodup)
    (hb : ∀ x ∈ l, x < 256) : l.length ≤ 256 := by
  have hp : (l.pmap (fun a (h : a < 256) => (⟨a, h⟩ : Fin 256)) hb).Nodup :=
    List.Nodup.pmap (fun a ha b hb h => by simpa using congrArg Fin.val h) h
  have hl : (l.pmap (fun a (h : a < 256) => (⟨a, h⟩ : Fin 256)) hb).length = l.length :=
    List.length_pmap
  have hc := hp.length_le_card
  rw [Fintype.card_fin] at hc
  omega

theorem flatten_singleton_map {α β : Type} (f : α → β) (l : List α) :
    (l.map (fun x => [f x])).flatten = l.map f := by
  induction l with
  | nil => rfl
  | cons a l ih => simp [ih]

theorem buildHuffmanTree_big (ft : List (Nat × Nat)) (h2 : 2 ≤ ft.length) :
    FullTree (buildHuffmanTree ft) ∧
    (leaves (buildHuffmanTree ft)).Perm (ft.map (fun p => p.1)) := by
  match ft with
  | p :: q :: rest =>
    show FullTree (hufLoop ((p :: q :: rest).map fun p => ((HTree.leaf p.1 : HTree), p.2))) ∧
      (leaves (hufLoop ((p :: q :: rest).map fun p => ((HTree.leaf p.1 : HTree), p.2)))).Perm _
    have hfull : ∀ pp ∈ (p :: q :: rest).map fun p => ((HTree.leaf p.1 : HTree), p.2),
        FullTree pp.1 := by
      intro pp hpp
      obtain ⟨r, _, heq⟩ := List.mem_map.mp hpp
      rw [← heq]
      exact FullTree.leaf r.1
    have h := hufLoop_full_leaves
      (((p :: q :: rest).map fun p => ((HTree.leaf p.1 : HTree), p.2)).length) _ rfl
      (by simp) hfull
    refine ⟨h.1, h.2.trans ?_⟩
    unfold treeListLeaves
    rw [List.map_map]
    have hcomp : ((fun pp : HTree × Nat => leaves pp.1) ∘
        fun p : Nat × Nat => ((HTree.leaf p.1 : HTree), p.2)) =
        fun p : Nat × Nat => [p.1] := by
      funext r
      rfl
    rw [hcomp, flatten_singleton_map]

theorem buildHuffmanTree_single (p : Nat × Nat) :
    buildHuffmanTree [p] = .node (.leaf p.1) .nil ∧
    leaves (buildHuffmanTree [p]) = [p.1] ∧
    writeTree (buildHuffmanTree [p]) = [0, 1, p.1] := by
  have h : buildHuffmanTree [p] = .node (.leaf p.1) .nil := rfl
  rw [h]
  refine ⟨rfl, by simp [leaves], by simp [writeTree]⟩

theorem mapSet_keys (m : List (Nat × List Bool)) (k : Nat) (v : List Bool) :
    (mapSet m k v).map (fun p => p.1) =
      if m.any (fun p => p.1 = k) then m.map (fun p => p.1)
      else m.map (fun p => p.1) ++ [k] := by
  unfold mapSet
  split
  · rw [List.map_map]
    apply List.map_congr_left
    intro p _
    by_cases hp : p.1 = k
    · simp [hp]
    · simp [hp]
  · simp

theorem generateCodes_keys (t : HTree) : ∀ (pre : List Bool)
    (m : List (Nat × List Bool)) (b : Nat),
    (b ∈ m.map (fun p => p.1) ∨ b ∈ leaves t) →
    b ∈ (generateCodes t pre m).map (fun p => p.1) := by
  induction t with
  | nil =>
    intro pre m b h
    rcases h with h | h
    · exact h
    · simp [leaves] at h
  | leaf b0 =>
    intro pre m b h
    show b ∈ (mapSet m b0 (if pre.isEmpty then [false] else pre)).map (fun p => p.1)
    rw [mapSet_keys]
    rcases h with h | h
    · split
      · exact h
      · simp [h]
    · simp [leaves] at h
      subst h
      split
      · rename_i hany
        obtain ⟨p, hp, hpk⟩ := List.any_eq_true.mp hany
        simp at hpk
        exact List.mem_map.mpr ⟨p, hp, hpk⟩
      · simp
  | node l r ihl ihr =>
    intro pre m b h
    show b ∈ (generateCodes r (pre ++ [true])
      (generateCodes l (pre ++ [false]) m)).map (fun p => p.1)
    rcases h with h | h
    · exact ihr _ _ b (Or.inl (ihl _ _ b (Or.inl h)))
    · rcases List.mem_append.mp (by simpa [leaves] using h) with h1 | h1
      · exact ihr _ _ b (Or.inl (ihl _ _ b (Or.inr h1)))
      · exact ihr _ _ b (Or.inr h1)

theorem lookupCode_some (m : List (Nat × List Bool)) (b : Nat)
    (h : b ∈ m.map (fun p => p.1)) : ∃ c, lookupCode m b = some c := by
  induction m with
  | nil => simp at h
  | cons p rest ih =>
    by_cases hp : p.1 = b
    · refine ⟨p.2, ?_⟩
      simp [lookupCode, List.find?_cons, hp]
    · have hrest : b ∈ rest.map (fun p => p.1) := by
        simp at h
        rcases h with h1 | h1
        · exact absurd h1.symm hp
        · simpa using h1
      obtain ⟨c, hc⟩ := ih hrest
      refine ⟨c, ?_⟩
      have hstep : List.find? (fun q => decide (q.1 = b)) (p :: rest) =
          List.find? (fun q => decide (q.1 = b)) rest := by
        rw [List.find?_cons]
        simp [hp]
      simp only [lookupCode] at hc ⊢
      rw [hstep]
      exact hc

theorem encodeBits_some (m : List (Nat × List Bool)) : ∀ (x : List Nat),
    (∀ b ∈ x, ∃ c, lookupCode m b = some c) → ∃ bits, encodeBits m x = some bits := by
  intro x
  induction x with
  | nil => exact fun _ => ⟨[], rfl⟩
  | cons a x ih =>
    intro h
    obtain ⟨c, hc⟩ := h a (by simp)
    obtain ⟨bits, hbits⟩ := ih (fun b hb => h b (by simp [hb]))
    exact ⟨c ++ bits, by simp [encodeBits, hc, hbits]⟩

theorem huffman_tree_size_le (x : List Nat) (hx : x ≠ []) (hb : ∀ b ∈ x, b < 256) :
    (writeTree (buildHuffmanTree (buildFrequencyTable x))).length ≤ 767 := by
  obtain ⟨hnd, hsub, _⟩ := buildFrequencyTable_keys x
  have hkeysbound : ((buildFrequencyTable x).map (fun p => p.1)).length ≤ 256 :=
    nodup_byte_list_length_le hnd (fun k hk => hb k (hsub k hk))
  have hftne := buildFrequencyTable_ne_nil x hx
  match hft : buildFrequencyTable x with
  | [] => exact absurd hft hftne
  | [p] =>
    rw [(buildHuffmanTree_single p).2.2]
    simp
  | p :: q :: rest =>
    obtain ⟨hfull, hperm⟩ := buildHuffmanTree_big (p :: q :: rest) (by simp)
    have hsize := writeTree_full_length hfull
    have hll := hperm.length_eq
    rw [hft] at hkeysbound
    simp only [List.length_map] at hkeysbound hll
    omega

theorem huffman_compress_ok (x : List Nat) (hx : x ≠ []) (hb : ∀ b ∈ x, b < 256) :
    ∃ out, compressHuffman x = .ok out := by
  obtain ⟨hnd, hsub, hcov⟩ := buildFrequencyTable_keys x
  have hftne := buildFrequencyTable_ne_nil x hx
  have hleaves : ∀ b ∈ x, b ∈ leaves (buildHuffmanTree (buildFrequencyTable x)) := by
    intro b hbx
    have hk := hcov b hbx
    match hft : buildFrequencyTable x with
    | [] => exact absurd hft hftne
    | [p] =>
      rw [hft] at hk
      simp at hk
      rw [(buildHuffmanTree_single p).2.1]
      simp [hk]
    | p :: q :: rest =>
      have hperm := (buildHuffmanTree_big (p :: q :: rest) (by simp)).2
      rw [hft] at hk
      exact hperm.mem_iff.mpr hk
  have hcodes : ∀ b ∈ x, ∃ c, lookupCode
      (generateCodes (buildHuffmanTree (buildFrequencyTable x)) [] []) b = some c := by
    intro b hbx
    exact lookupCode_some _ b
      (generateCodes_keys _ [] [] b (Or.inr (hleaves b hbx)))
  obtain ⟨bits, hbits⟩ := encodeBits_some _ x hcodes
  have hsize := huffman_tree_size_le x hx hb
  refine ⟨[(8 - bits.length % 8) % 8,
      (writeTree (buildHuffmanTree (buildFrequencyTable x))).length / 256 % 256,
      (writeTree (buildHuffmanTree (buildFrequencyTable x))).length % 256]
    ++ be32 x.length ++ writeTree (buildHuffmanTree (buildFrequencyTable x))
    ++ packBits (bits ++ List.replicate ((8 - bits.length % 8) % 8) false), ?_⟩
  simp only [compressHuffman]
  rw [if_neg (by simpa using hx)]
  simp only [hbits]
  rw [if_neg (by omega)]

/-- Counterexample for C9 as stated: the byte input containing all 256
byte values yields a Huffman tree that serializes to 767 bytes, above the
claimed bound of 765 (256 leaves at 2 bytes each plus 255 internal markers). -/
theorem C9_tree_bound_765_counterexample :
    (∀ b ∈ List.range 256, b < 256) ∧
    (writeTree (buildHuffmanTree (buildFrequencyTable (List.range 256)))).length = 767 := by
  refine ⟨by simp, ?_⟩
  obtain ⟨hnd, hsub, hcov⟩ := buildFrequencyTable_keys (List.range 256)
  have hle : ((buildFrequencyTable (List.range 256)).map (fun p => p.1)).length ≤ 256 :=
    nodup_byte_list_length_le hnd (fun k hk => by simpa using hsub k hk)
  have hge : 256 ≤ ((buildFrequencyTable (List.range 256)).map (fun p => p.1)).length := by
    have hr : (List.range 256).Nodup := List.nodup_range 256
    have hsubset : List.range 256 ⊆
        (buildFrequencyTable (List.range 256)).map (fun p => p.1) :=
      fun b hb => hcov b hb
    have := (List.subperm_of_subset hr hsubset).length_le
    simpa using this
  obtain ⟨hfull, hperm⟩ := buildHuffmanTree_big (buildFrequencyTable (List.range 256)) (by
    have := hle
    have := hge
    simp only [List.length_map] at hle hge ⊢
    omega)
  have hsize := writeTree_full_length hfull
  have hll := hperm.length_eq
  simp only [List.length_map] at hle hge hll
  omega

/-- C9 (amended: the serialized tree of a byte input is at most 767 bytes,
not 765 — 256 leaves cost two bytes each and 255 internal nodes one byte).
Huffman and RLE compression raise the empty-input error exactly on the
empty buffer; on every non-empty byte buffer both succeed, so in
particular the TreeTooLargeError branch is unreachable for byte input. -/
theorem C9_compress_error_iff_empty_and_tree_bound :
    (∀ x : List Nat,
      (compressRLE x = .error "Cannot compress empty input" ↔ x = []) ∧
      (x ≠ [] → ∃ out, compressRLE x = .ok out)) ∧
    (∀ x : List Nat, (∀ b ∈ x, b < 256) →
      (compressHuffman x = .error "Cannot compress empty input" ↔ x = []) ∧
      (x ≠ [] → ∃ out, compressHuffman x = .ok out) ∧
      (writeTree (buildHuffmanTree (buildFrequencyTable x))).length ≤ 767) := by
  constructor
  · intro x
    constructor
    · constructor
      · intro herr
        by_contra hne
        rw [compressRLE, if_neg (by simpa using hne)] at herr
        cases herr
      · intro hx
        subst hx
        rfl
    · intro hx
      exact ⟨_, by rw [compressRLE, if_neg (by simpa using hx)]⟩
  · intro x hb
    by_cases hx : x = []
    · subst hx
      refine ⟨by simp [compressHuffman], by simp, ?_⟩
      show (writeTree (buildHuffmanTree (buildFrequencyTable []))).length ≤ 767
      simp [buildFrequencyTable, buildHuffmanTree, writeTree]
    · refine ⟨?_, fun _ => huffman_compress_ok x hx hb, huffman_tree_size_le x hx hb⟩
      constructor
      · intro herr
        obtain ⟨out, hout⟩ := huffman_compress_ok x hx hb
        rw [hout] at herr
        cases herr
      · intro habs
        exact absurd habs hx

/-- Witness for C9 at concrete inputs: RLE and Huffman compression of the
buffer [1, 2] succeed, and its serialized tree is within the 767-byte
bound. -/
theorem C9_compress_error_iff_empty_and_tree_bound_witness :
    (∃ out, compressRLE [1, 2] = .ok out) ∧
    (∃ out, compressHuffman [1, 2] = .ok out) ∧
    (writeTree (buildHuffmanTree (buildFrequencyTable [1, 2]))).length ≤ 767 ∧
    ¬ compressRLE [1, 2] = .error "Cannot compress empty input" := by
  have h := C9_compress_error_iff_empty_and_tree_bound
  have hr := h.1 [1, 2]
  have hh := h.2 [1, 2] (by
    intro b hb
    simp at hb
    rcases hb with h1 | h1 <;> omega)
  refine ⟨hr.2 (by simp), hh.2.1 (by simp), hh.2.2, ?_⟩
  intro habs
  have := hr.1.mp habs
  simp at this

/-! ### The RLE round trip

decompress(compress(x)) = x holds for RLE on every non-empty byte buffer
within the sniffer's 100 MiB bound, in contrast with the LZ77 and Huffman
failures recorded at C1 and C3. -/

theorem countEq_take_drop (b : Nat) : ∀ (rest : List Nat) (cap : Nat),
    rest.take (countEq b rest cap) = List.replicate (countEq b rest cap) b ∧
    countEq b rest cap ≤ cap ∧ countEq b rest cap ≤ rest.length ∧
    (countEq b rest cap < cap → (rest.drop (countEq b rest cap)).head? ≠ some b) := by
  intro rest
  induction rest with
  | nil =>
    intro cap
    cases cap <;> simp [countEq]
  | cons c cs ih =>
    intro cap
    match cap with
    | 0 => simp [countEq]
    | cap + 1 =>
      by_cases hc : c = b
      · subst hc
        have hk : countEq c (c :: cs) (cap + 1) = countEq c cs cap + 1 := by
          simp [countEq]
        obtain ⟨ht, hle, hlen, hh⟩ := ih cap
        rw [hk]
        refine ⟨?_, by omega, by simp; omega, ?_⟩
        · rw [List.take_succ_cons, ht, List.replicate_succ]
        · intro hlt
          rw [List.drop_succ_cons]
          exact hh (by omega)
      · have hk : countEq b (c :: cs) (cap + 1) = 0 := by
          simp [countEq, hc]
        rw [hk]
        refine ⟨by simp, by omega, by simp, ?_⟩
        intro _
        simp [hc]

theorem rleLoop_escape_step (esc : Nat) (orig : Int) (d r : Nat) (comp out : List Nat)
    (hlt : (out.length : Int) < orig) (h1 : 1 ≤ r) (h255 : r ≤ 255) :
    rleLoop esc orig (esc :: d :: r :: comp) out =
      rleLoop esc orig comp (out ++ List.replicate (min r (orig - out.length).toNat) d) := by
  rw [rleLoop_cons, if_pos hlt, if_pos rfl]
  show (if r = 0 then Except.error "Invalid RLE run length: 0"
        else if r > 255 then Except.error "Invalid RLE run length above maximum"
        else rleLoop esc orig comp
          (out ++ List.replicate (min r (orig - out.length).toNat) d)) = _
  rw [if_neg (by omega), if_neg (by omega)]

theorem rleLoop_literal_steps (esc : Nat) (orig : Int) (b : Nat) (hb : b ≠ esc) :
    ∀ (r : Nat) (comp out : List Nat), (out.length + r : Int) ≤ orig →
    rleLoop esc orig (List.replicate r b ++ comp) out =
      rleLoop esc orig comp (out ++ List.replicate r b) := by
  intro r
  induction r with
  | zero => simp
  | succ r ih =>
    intro comp out hle
    rw [List.replicate_succ, List.cons_append]
    rw [rleLoop_cons, if_pos (by push_cast at hle ⊢; omega), if_neg hb]
    rw [ih comp (out ++ [b]) (by push_cast at hle ⊢; simp; omega)]
    congr 1
    rw [List.append_assoc]
    rfl

theorem rleLoop_escaped_literal (esc : Nat) (orig : Int) (comp out : List Nat)
    (hlt : (out.length : Int) < orig) :
    rleLoop esc orig (esc :: esc :: 1 :: comp) out =
      rleLoop esc orig comp (out ++ [esc]) := by
  rw [rleLoop_escape_step esc orig esc 1 comp out hlt (by omega) (by omega)]
  have hmin : min 1 (orig - (out.length : Int)).toNat = 1 := by
    omega
  rw [hmin]
  rfl

theorem rleBody_cons (b : Nat) (rest : List Nat) :
    rleBody (b :: rest) =
      if 3 ≤ countEq b rest 254 + 1 then
        255 :: b :: (countEq b rest 254 + 1) :: rleBody (rest.drop (countEq b rest 254))
      else
        (((b :: rest).take (countEq b rest 254 + 1)).map
          (fun c => if c = 255 then [255, 255, 1] else [c])).flatten
          ++ rleBody (rest.drop (countEq b rest 254)) := by
  conv_lhs => unfold rleBody

theorem flatten_replicate_singleton {α : Type} (r : Nat) (a : α) :
    (List.replicate r [a]).flatten = List.replicate r a := by
  induction r with
  | zero => rfl
  | succ r ih =>
    rw [List.replicate_succ, List.flatten_cons, ih, List.replicate_succ]
    rfl

theorem rleLoop_inverts : ∀ (n : Nat) (x : List Nat), x.length = n →
    ∀ (out : List Nat) (orig : Int),
    orig = (out.length : Int) + (x.length : Int) →
    rleLoop 255 orig (rleBody x) out = .ok (out ++ x) := by
  intro n
  induction n using Nat.strong_induction_on with
  | _ n ih =>
    intro x hxn out orig horig
    match x with
    | [] =>
      rw [rleBody_nil, rleLoop_exhausted]
      simp
    | b :: rest =>
      obtain ⟨htake, hcap, hlenk, hhead⟩ := countEq_take_drop b rest 254
      have hxlen : ((b :: rest).length : Int) = (rest.length : Int) + 1 := by
        simp
      rw [hxlen] at horig
      have hlt : (out.length : Int) < orig := by omega
      rw [rleBody_cons]
      have hrec : ∀ (out2 : List Nat),
          (out2.length : Int) = (out.length : Int) + (countEq b rest 254 : Int) + 1 →
          rleLoop 255 orig (rleBody (rest.drop (countEq b rest 254))) out2 =
            .ok (out2 ++ rest.drop (countEq b rest 254)) := by
        intro out2 hout2
        refine ih ((rest.drop (countEq b rest 254)).length) ?_ _ rfl out2 orig ?_
        · simp only [List.length_drop]
          simp only [List.length_cons] at hxn
          omega
        · simp only [List.length_drop]
          omega
      have hsplit : List.replicate (countEq b rest 254 + 1) b ++
          rest.drop (countEq b rest 254) = b :: rest := by
        rw [List.replicate_succ, List.cons_append, ← htake, List.take_append_drop]
      by_cases h3 : 3 ≤ countEq b rest 254 + 1
      · rw [if_pos h3]
        rw [rleLoop_escape_step 255 orig b (countEq b rest 254 + 1) _ out hlt
          (by omega) (by omega)]
        have hmin : min (countEq b rest 254 + 1) (orig - (out.length : Int)).toNat =
            countEq b rest 254 + 1 := by
          omega

        rw [hmin]
        rw [hrec (out ++ List.replicate (countEq b rest 254 + 1) b) (by
          simp only [List.length_append, List.length_replicate]
          push_cast
          omega)]
        rw [List.append_assoc, hsplit]
      · rw [if_neg h3]
        have hk1 : countEq b rest 254 ≤ 1 := by omega
        have htakex : (b :: rest).take (countEq b rest 254 + 1) =
            List.replicate (countEq b rest 254 + 1) b := by
          rw [List.take_succ_cons, htake, List.replicate_succ]
        rw [htakex, List.map_replicate]
        by_cases hb255 : b = 255
        · subst hb255
          rw [if_pos rfl]
          rcases Nat.le_one_iff_eq_zero_or_eq_one.mp hk1 with hk0 | hk0 <;>
            rw [hk0] at hrec ⊢
          · simp only [List.drop_zero] at hrec
            show rleLoop 255 orig (([[255, 255, 1]]).flatten ++ rleBody (rest.drop 0)) out =
              .ok (out ++ (255 :: rest))
            have hfl : ([[255, 255, 1]] : List (List Nat)).flatten ++ rleBody (rest.drop 0) =
                255 :: 255 :: 1 :: rleBody rest := by
              simp
            rw [hfl, rleLoop_escaped_literal 255 orig _ out hlt]
            rw [hrec (out ++ [255]) (by
              simp only [List.length_append, List.length_cons, List.length_nil]
              push_cast
              omega)]
            simp
          · show rleLoop 255 orig
              (([[255, 255, 1], [255, 255, 1]]).flatten ++ rleBody (rest.drop 1)) out =
              .ok (out ++ (255 :: rest))
            have hfl : ([[255, 255, 1], [255, 255, 1]] : List (List Nat)).flatten ++
                rleBody (rest.drop 1) =
                255 :: 255 :: 1 :: (255 :: 255 :: 1 :: rleBody (rest.drop 1)) := by
              simp
            rw [hfl, rleLoop_escaped_literal 255 orig _ out hlt]
            rw [rleLoop_escaped_literal 255 orig _ (out ++ [255]) (by
              simp only [List.length_append, List.length_cons, List.length_nil]
              have hrl : 1 ≤ rest.length := by
                rw [hk0] at hlenk
                omega
              push_cast
              omega)]
            rw [hrec ((out ++ [255]) ++ [255]) (by
              simp only [List.length_append, List.length_cons, List.length_nil]
              push_cast
              omega)]
            have hrest1 : rest = 255 :: rest.drop 1 := by
              have h1 : rest.take 1 = [255] := by
                rw [hk0] at htake
                simpa using htake
              conv_lhs => rw [← List.take_append_drop 1 rest, h1]
              rfl
            congr 1
            conv_rhs => rw [hrest1]
            simp
        · rw [if_neg hb255, flatten_replicate_singleton]
          rw [rleLoop_literal_steps 255 orig b hb255 (countEq b rest 254 + 1) _ out (by
            push_cast
            omega)]
          rw [hrec (out ++ List.replicate (countEq b rest 254 + 1) b) (by
            simp only [List.length_append, List.length_replicate]
            push_cast
            omega)]
          rw [List.append_assoc, hsplit]

theorem rleBody_ne_nil (x : List Nat) (hx : x ≠ []) : rleBody x ≠ [] := by
  match x with
  | b :: rest =>
    rw [rleBody_cons]
    split
    · simp
    · simp only [List.take_succ_cons, List.map_cons, List.flatten_cons]
      by_cases hb : b = 255 <;> simp [hb]

theorem readBE32At_header (n : Nat) (tail : List Nat) (hn : n < 2147483648) :
    readBE32At (n / 16777216 % 256 :: n / 65536 % 256 :: n / 256 % 256 ::
      n % 256 :: tail) 0 = (n : Int) := by
  show toI32 (n / 16777216 % 256 * 16777216 + n / 65536 % 256 * 65536 +
    n / 256 % 256 * 256 + n % 256) = (n : Int)
  have hv : n / 16777216 % 256 * 16777216 + n / 65536 % 256 * 65536 +
      n / 256 % 256 * 256 + n % 256 = n := by
    omega
  rw [hv]
  unfold toI32
  rw [if_pos (by omega)]
  have hm : n % 4294967296 = n := by omega
  rw [hm]

theorem isValidRLEFile_container (x : List Nat) (hx : x ≠ [])
    (hlen : x.length ≤ 104857600) :
    isValidRLEFile (be32 x.length ++ [225, 255] ++ rleBody x) = true := by
  have hbody : 1 ≤ (rleBody x).length := List.length_pos.mpr (rleBody_ne_nil x hx)
  have hxpos : 1 ≤ x.length := List.length_pos.mpr hx
  have hshape : be32 x.length ++ [225, 255] ++ rleBody x =
      x.length / 16777216 % 256 :: x.length / 65536 % 256 :: x.length / 256 % 256 ::
      x.length % 256 :: 225 :: 255 :: rleBody x := by
    simp [be32]
  rw [hshape]
  unfold isValidRLEFile
  rw [if_neg (by simp)]
  rw [if_neg (by show ¬ ((225 : Nat) ≠ 225); simp)]
  have hread := readBE32At_header x.length (225 :: 255 :: rleBody x) (by omega)
  rw [hread]
  rw [if_neg (by
    push_neg
    constructor
    · exact_mod_cast (by omega : x.length ≠ 0)
    · exact_mod_cast hlen)]
  rw [if_neg (by simp; omega)]

/-- The RLE codec round-trips every non-empty buffer whose length is within
the sniffer's 100 MiB acceptance bound: compression succeeds and feeding
its container to decompressRLE reproduces the input exactly. -/
theorem rle_roundtrip (x : List Nat) (hx : x ≠ []) (hlen : x.length ≤ 104857600) :
    compressRLE x = .ok (be32 x.length ++ [225, 255] ++ rleBody x) ∧
    decompressRLE (be32 x.length ++ [225, 255] ++ rleBody x) = .ok x := by
  refine ⟨by rw [compressRLE, if_neg (by simpa using hx)], ?_⟩
  rw [decompressRLE, if_pos (isValidRLEFile_container x hx hlen)]
  have hshape : be32 x.length ++ [225, 255] ++ rleBody x =
      x.length / 16777216 % 256 :: x.length / 65536 % 256 :: x.length / 256 % 256 ::
      x.length % 256 :: 225 :: 255 :: rleBody x := by
    simp [be32]
  rw [hshape]
  unfold RLE.performActualDecompression
  have hread := readBE32At_header x.length (225 :: 255 :: rleBody x) (by omega)
  rw [hread]
  have hesc : (x.length / 16777216 % 256 :: x.length / 65536 % 256 ::
      x.length / 256 % 256 :: x.length % 256 :: 225 :: 255 :: rleBody x).getD 5 0 = 255 := rfl
  rw [hesc]
  have hdrop : (x.length / 16777216 % 256 :: x.length / 65536 % 256 ::
      x.length / 256 % 256 :: x.length % 256 :: 225 :: 255 :: rleBody x).drop 6 =
      rleBody x := rfl
  rw [hdrop]
  have := rleLoop_inverts x.length x rfl [] (x.length : Int) (by simp)
  simpa using this

/-- Concrete instance of the RLE round trip on the spec's scenario buffer. -/
theorem rle_roundtrip_example :
    decompressRLE ((compressRLE [5, 5, 5, 5, 5, 7, 7, 255]).toOption.getD []) =
      .ok [5, 5, 5, 5, 5, 7, 7, 255] := by
  have h := rle_roundtrip [5, 5, 5, 5, 5, 7, 7, 255] (by simp) (by simp)
  rw [h.1]
  exact h.2

/-! ### Pass-through on sniffer rejection

The fallback behavior that C2 describes does hold everywhere except for
the Huffman empty-buffer case recorded at C2: RLE and LZ77 return any
rejected buffer unchanged without error, and Huffman does so for every
non-empty rejected byte buffer (its stray compressHuffman call succeeds
there). -/

theorem decompressRLE_reject (buf : List Nat) (h : isValidRLEFile buf = false) :
    decompressRLE buf = .ok buf := by
  rw [decompressRLE, if_neg (by rw [h]; simp)]

theorem decompressLZ77_reject (buf : List Nat) (h : isValidLZ77File buf = false) :
    decompressLZ77 buf = .ok buf := by
  rw [decompressLZ77, if_neg (by rw [h]; simp)]

theorem decompressHuffman_reject_nonempty (buf : List Nat)
    (h : isValidHuffmanFile buf = false) (hne : buf ≠ []) (hb : ∀ b ∈ buf, b < 256) :
    decompressHuffman buf = .ok buf := by
  rw [decompressHuffman, if_neg (by rw [h]; simp)]
  obtain ⟨out, hout⟩ := huffman_compress_ok buf hne hb
  rw [hout]
